import Mathlib

/-!
# Sparse Merkle Tree client (`smt.ts`) — verification development

Shallow embedding of the off-chain Sparse Merkle Tree engine of the
`smt_exclusion` circuit client.  TypeScript `bigint` values are embedded as
`Nat` (all values occurring here are non-negative; JavaScript bigints are
arbitrary precision, so no wrap-around modelling is needed).  The Poseidon
hash oracle is an explicit parameter `h2 : Nat → Nat → Nat`; the source
treats it as a deterministic two-to-one compression returning a BN254 field
element (hence `< 2^254`, which theorems assume where the source relies on
it).  A JavaScript `Map` keyed by the decimal string of a bigint is embedded
as an association list keyed by the `Nat` itself: decimal-string encoding is
injective, `Map.get`/`Map.set` become `mapGet`/`mapSet`, and `Map` iteration
order (insertion order, with `set` of an existing key keeping its slot) is
the list order.  Code that can throw is embedded with `Option` (`none` =
exception).
-/

/-- `TREE_DEPTH` from the source: 254 bits for the BN254 field. -/
def TREE_DEPTH : Nat := 254

/-- The sparse leaf store: JS `Map<string, bigint>` keyed by decimal index
strings, embedded as an association list `index ↦ value` in insertion
order. -/
abbrev Leaves := List (Nat × Nat)

/-- JS `Map.get`: value of the first (unique) entry with the given key. -/
def mapGet (m : Leaves) (k : Nat) : Option Nat :=
  (m.find? (fun e => e.1 == k)).map (fun e => e.2)

/-- JS `Map.set`: overwrite the entry with key `k` in place if present,
otherwise append a new entry. -/
def mapSet (m : Leaves) (k v : Nat) : Leaves :=
  if (m.find? (fun e => e.1 == k)).isSome then
    m.map (fun e => if e.1 == k then (k, v) else e)
  else
    m ++ [(k, v)]

/-- A JS `Map` never holds two entries with the same key. -/
def KeysNodup (m : Leaves) : Prop := (m.map Prod.fst).Nodup

/-- `bytes16ToField` from the source: reads 16 bytes starting at `start`,
little-endian (`result += bytes[start+i] * multiplier; multiplier *= 256`).
An out-of-bounds read yields JS `undefined` and `BigInt(undefined)` throws,
embedded as `none`. -/
def bytes16ToField (bytes : List Nat) (start : Nat) : Option Nat :=
  (((List.range 16).foldlM
    (fun (s : Nat × Nat) i =>
      match bytes[start + i]? with
      | some b => some (s.1 + b * s.2, s.2 * 256)
      | none => none)
    ((0, 1) : Nat × Nat) : Option (Nat × Nat))).map (fun s => s.1)

/-- `pubkeyToIndex` from the source: hash the two 16-byte halves of the
pubkey into the tree index, `hash2(low, high)`. -/
def pubkeyToIndex (h2 : Nat → Nat → Nat) (pubkey : List Nat) : Option Nat := do
  let low ← bytes16ToField pubkey 0
  let high ← bytes16ToField pubkey 16
  pure (h2 low high)

/-- `getPathBits` from the source: push `(val & 1) == 1` then shift
`val >>= 1`, `TREE_DEPTH` times (little-endian path bits). -/
def getPathBitsAux : Nat → Nat → List Bool
  | _, 0 => []
  | val, n + 1 => ((val &&& 1) == 1) :: getPathBitsAux (val >>> 1) n

/-- Extract the 254 path bits of an index (bit `i` = direction at level `i`). -/
def getPathBits (index : Nat) : List Bool :=
  getPathBitsAux index TREE_DEPTH

/-- The default-subtree hash ladder recursion: `D[0] = 0`,
`D[i] = hash2(D[i-1], D[i-1])`. -/
def defaultHash (h2 : Nat → Nat → Nat) : Nat → Nat
  | 0 => 0
  | i + 1 => h2 (defaultHash h2 i) (defaultHash h2 i)

/-- The engine state: the sparse leaf map plus the precomputed
`defaultHashes` array (length `TREE_DEPTH + 1`). -/
structure SparseMerkleTree where
  leaves : Leaves
  defaultHashes : List Nat
  deriving DecidableEq

/-- The constructor: empty leaf map, and `defaultHashes[i] = D[i]` for
`i = 0 .. TREE_DEPTH` (the source fills the array with the same loop the
`defaultHash` recursion describes). -/
def SparseMerkleTree.new (h2 : Nat → Nat → Nat) : SparseMerkleTree :=
  ⟨[], (List.range (TREE_DEPTH + 1)).map (defaultHash h2)⟩

/-- `insert`: derive the leaf index and store `value` at it (the source
defaults `value` to `1`; callers here always pass it explicitly). -/
def SparseMerkleTree.insert (h2 : Nat → Nat → Nat) (t : SparseMerkleTree)
    (pubkey : List Nat) (value : Nat) : Option SparseMerkleTree :=
  (pubkeyToIndex h2 pubkey).map fun index =>
    ⟨mapSet t.leaves index value, t.defaultHashes⟩

/-- `get`: stored leaf value at the pubkey's index, `0` if absent. -/
def SparseMerkleTree.get (h2 : Nat → Nat → Nat) (t : SparseMerkleTree)
    (pubkey : List Nat) : Option Nat :=
  (pubkeyToIndex h2 pubkey).map fun index => (mapGet t.leaves index).getD 0

/-- `isBlacklisted`: `get(pubkey) !== 0n`. -/
def SparseMerkleTree.isBlacklisted (h2 : Nat → Nat → Nat)
    (t : SparseMerkleTree) (pubkey : List Nat) : Option Bool :=
  (t.get h2 pubkey).map (fun v => decide (v ≠ 0))

/-- One level of the bottom-up fold in `getRoot`: for every entry of the
current level, pair it with its sibling (stored value, or the level's
default hash), combine `hash2(left, right)` by index parity, and write the
parent.  When both children are materialized the parent is written twice
with the same value, exactly as in the source. -/
def foldStep (h2 : Nat → Nat → Nat) (defaults : List Nat) (level : Nat)
    (cur : Leaves) : Leaves :=
  cur.foldl
    (fun next e =>
      let index := e.1
      let value := e.2
      let parentIndex := index >>> 1
      let isRightChild := (index &&& 1) == 1
      let siblingIndex := if isRightChild then index - 1 else index + 1
      let sibling := (mapGet cur siblingIndex).getD (defaults.getD level 0)
      let left := if isRightChild then sibling else value
      let right := if isRightChild then value else sibling
      mapSet next parentIndex (h2 left right))
    []

/-- The successive levels of `getRoot`'s fold: level `0` is the leaf map,
level `l+1` folds level `l`. -/
def rootLevels (h2 : Nat → Nat → Nat) (defaults : List Nat) (leaves : Leaves) :
    Nat → Leaves
  | 0 => leaves
  | l + 1 => foldStep h2 defaults l (rootLevels h2 defaults leaves l)

/-- `getRoot`: `D[254]` when no leaves are stored, otherwise the entry at
index `0` after 254 fold levels (falling back to `D[254]` if absent). -/
def SparseMerkleTree.getRoot (h2 : Nat → Nat → Nat) (t : SparseMerkleTree) :
    Nat :=
  if t.leaves.length = 0 then
    t.defaultHashes.getD TREE_DEPTH 0
  else
    (mapGet (rootLevels h2 t.defaultHashes t.leaves TREE_DEPTH) 0).getD
      (t.defaultHashes.getD TREE_DEPTH 0)

/-- `getEmptyRoot`: `defaultHashes[TREE_DEPTH]` unconditionally. -/
def SparseMerkleTree.getEmptyRoot (t : SparseMerkleTree) : Nat :=
  t.defaultHashes.getD TREE_DEPTH 0

/-- One level of the fold inside `getMerkleProof`: identical combination
rule to `foldStep`, except each parent is processed only once (the
`processedParents` set, embedded as a list). -/
def proofFoldStep (h2 : Nat → Nat → Nat) (defaults : List Nat) (level : Nat)
    (cur : Leaves) : Leaves :=
  (cur.foldl
    (fun (acc : Leaves × List Nat) e =>
      let idx := e.1
      let value := e.2
      let parentIdx := idx >>> 1
      if acc.2.contains parentIdx then acc
      else
        let isRightChild := (idx &&& 1) == 1
        let sibIdx := if isRightChild then idx - 1 else idx + 1
        let sib := (mapGet cur sibIdx).getD (defaults.getD level 0)
        let left := if isRightChild then sib else value
        let right := if isRightChild then value else sib
        (mapSet acc.1 parentIdx (h2 left right), parentIdx :: acc.2))
    (([], []) : Leaves × List Nat)).1

/-- The successive levels of `getMerkleProof`'s fold. -/
def proofLevels (h2 : Nat → Nat → Nat) (defaults : List Nat)
    (leaves : Leaves) : Nat → Leaves
  | 0 => leaves
  | l + 1 => proofFoldStep h2 defaults l (proofLevels h2 defaults leaves l)

/-- `posAtLevel` computation inside `getMerkleProof`: rebuild the position
at `level` from the path bits not yet consumed
(`pos |= 1 << (i - level)` for `i = level .. TREE_DEPTH - 1`). -/
def posAtLevel (pathBits : List Bool) (level : Nat) : Nat :=
  (List.range (TREE_DEPTH - level)).foldl
    (fun pos j => if pathBits.getD (level + j) false then pos ||| (1 <<< j) else pos)
    0

/-- The sibling recorded at one level of `getMerkleProof`: the value at the
flipped-parity position of the (recomputed) current level, or the level's
default hash.  The source builds the levels incrementally alongside the
sibling list; the values are identical. -/
def siblingAt (h2 : Nat → Nat → Nat) (defaults : List Nat) (leaves : Leaves)
    (index level : Nat) : Nat :=
  let pathBits := getPathBits index
  let pos := posAtLevel pathBits level
  let sibPos := if pathBits.getD level false then pos - 1 else pos + 1
  (mapGet (proofLevels h2 defaults leaves level) sibPos).getD
    (defaults.getD level 0)

/-- `getMerkleProof`: the 254 level siblings plus the stored leaf value
(`0` if the index is absent). -/
def SparseMerkleTree.getMerkleProof (h2 : Nat → Nat → Nat)
    (t : SparseMerkleTree) (pubkey : List Nat) :
    Option (List Nat × Nat) :=
  (pubkeyToIndex h2 pubkey).map fun index =>
    ((List.range TREE_DEPTH).map
        (siblingAt h2 t.defaultHashes t.leaves index),
      (mapGet t.leaves index).getD 0)

/-- Modelled from the spec: the external verifier's fold (the circuit side,
not part of this client).  Starting from the leaf value, at each level the
sibling is the left argument when the path bit is set and the right
argument otherwise. -/
def verifyFoldAux (h2 : Nat → Nat → Nat) :
    List Bool → List Nat → Nat → Nat
  | b :: bs, s :: ss, acc =>
      verifyFoldAux h2 bs ss (if b then h2 s acc else h2 acc s)
  | _, _, acc => acc

/-- A reachable engine state: the ladder is the constructor's ladder and the
leaf map has no duplicate keys (a JS `Map` invariant). -/
def SparseMerkleTree.WF (h2 : Nat → Nat → Nat) (t : SparseMerkleTree) : Prop :=
  t.defaultHashes = (List.range (TREE_DEPTH + 1)).map (defaultHash h2) ∧
    KeysNodup t.leaves

/-- A maintainer run: construct the engine, then perform the given
insertions in order. -/
def buildTree (h2 : Nat → Nat → Nat) (ops : List (List Nat × Nat)) :
    Option SparseMerkleTree :=
  ops.foldlM (fun t op => t.insert h2 op.1 op.2) (SparseMerkleTree.new h2)

/-- `fieldToHex`'s digit conversion: JS `BigInt.toString(16)` produces
lowercase hex digits, most significant first, no leading zeros, and `"0"`
for zero. -/
def hexDigitChar (d : Nat) : Char :=
  if d < 10 then Char.ofNat (48 + d) else Char.ofNat (87 + d)

/-- Big-endian hex digit list of a natural number (JS `toString(16)`). -/
def natToHexList (n : Nat) : List Char :=
  if _h : n < 16 then [hexDigitChar n]
  else natToHexList (n / 16) ++ [hexDigitChar (n % 16)]
  decreasing_by omega

/-- JS `String.padStart(64, "0")` on the digit list. -/
def padStartZeros (s : List Char) (n : Nat) : List Char :=
  List.replicate (n - s.length) '0' ++ s

/-- `fieldToHex` from the source: `"0x" + f.toString(16).padStart(64, "0")`. -/
def fieldToHex (f : Nat) : String :=
  String.mk ('0' :: 'x' :: padStartZeros (natToHexList f) 64)

/-- Value of a big-endian hex digit character. -/
def hexCharVal (c : Char) : Nat :=
  if c.toNat ≥ 97 then c.toNat - 87 else c.toNat - 48

/-- Value denoted by a big-endian hex digit string. -/
def hexValBE (s : List Char) : Nat :=
  s.foldl (fun a c => 16 * a + hexCharVal c) 0

/-- Little-endian base-256 value of a byte list (the spec's reading of a
16-byte half as a little-endian field element). -/
def leVal : List Nat → Nat
  | [] => 0
  | b :: bs => b + 256 * leVal bs

/-- Extensional effect of one fold level: a parent is present exactly when
one of its children is, and its value combines the two child slots (stored
value, or the level default) in fixed left-right order. -/
def parentFun (h2 : Nat → Nat → Nat) (dl : Nat) (f : Nat → Option Nat) :
    Nat → Option Nat :=
  fun p =>
    if (f (2 * p)).isSome || (f (2 * p + 1)).isSome then
      some (h2 ((f (2 * p)).getD dl) ((f (2 * p + 1)).getD dl))
    else none

/-- The extensional content of both `rootLevels` and `proofLevels`: the
lookup function of level `l`, obtained by iterating `parentFun` on the leaf
lookup, with per-level sibling defaults `dds`. -/
def levelFun (h2 : Nat → Nat → Nat) (dds : Nat → Nat) (f0 : Nat → Option Nat) :
    Nat → Nat → Option Nat
  | 0 => f0
  | l + 1 => parentFun h2 (dds l) (levelFun h2 dds f0 l)

/-- The value sitting on the proof path at each level: the fold value the
external verifier accumulates, expressed through the abstract level chain
(stored slot value, or the level's empty-subtree hash). -/
def chainVal (h2 : Nat → Nat → Nat) (f0 : Nat → Option Nat) (idx : Nat) :
    Nat → Nat
  | 0 => (f0 idx).getD 0
  | l + 1 =>
    if idx.testBit l then
      h2 ((levelFun h2 (defaultHash h2) f0 l ((idx >>> l) - 1)).getD
            (defaultHash h2 l))
        (chainVal h2 f0 idx l)
    else
      h2 (chainVal h2 f0 idx l)
        ((levelFun h2 (defaultHash h2) f0 l ((idx >>> l) + 1)).getD
            (defaultHash h2 l))

/-- A concrete stand-in oracle for closed instances: a deterministic
two-to-one compression whose outputs are reduced below `2^254`, like a
field hash. -/
def testHash (a b : Nat) : Nat := (2 * a + 3 * b + 1) % 2 ^ 254

/-- Lowercase hexadecimal digit characters: ASCII `0`-`9` or `a`-`f`. -/
def isHexLowerChar (c : Char) : Bool :=
  (48 ≤ c.toNat && c.toNat ≤ 57) || (97 ≤ c.toNat && c.toNat ≤ 102)

/-! ## The initialization gate (`initPoseidon` / `getPoseidon`)

The source keeps a process-wide `poseidonInstance : Poseidon | null`.
`getPoseidon` throws when it is still `null`; every hash goes through it.
The monadic family below threads that capability explicitly: `none` models
the uninitialized state, and a `none` result models the thrown error. -/

/-- The global hasher slot: `none` until `initPoseidon` has resolved. -/
abbrev HashOracle := Option (Nat → Nat → Nat)

/-- `poseidonHash2` via `getPoseidon`: throws (`none`) when uninitialized. -/
def poseidonHash2M (ph : HashOracle) (a b : Nat) : Option Nat :=
  match ph with
  | none => none
  | some h2 => some (h2 a b)

/-- The ladder recursion under the initialization gate. -/
def defaultHashM (ph : HashOracle) : Nat → Option Nat
  | 0 => some 0
  | i + 1 => do
    let prev ← defaultHashM ph i
    poseidonHash2M ph prev prev

/-- The constructor under the initialization gate: filling `defaultHashes`
performs 254 oracle calls. -/
def newM (ph : HashOracle) : Option SparseMerkleTree := do
  let ds ← (List.range (TREE_DEPTH + 1)).mapM (defaultHashM ph)
  pure ⟨[], ds⟩

/-- `pubkeyToIndex` under the initialization gate. -/
def pubkeyToIndexM (ph : HashOracle) (pubkey : List Nat) : Option Nat := do
  let low ← bytes16ToField pubkey 0
  let high ← bytes16ToField pubkey 16
  poseidonHash2M ph low high

/-- `insert` under the initialization gate. -/
def insertM (ph : HashOracle) (t : SparseMerkleTree) (pk : List Nat)
    (v : Nat) : Option SparseMerkleTree :=
  (pubkeyToIndexM ph pk).map fun index =>
    ⟨mapSet t.leaves index v, t.defaultHashes⟩

/-- `get` under the initialization gate. -/
def getM (ph : HashOracle) (t : SparseMerkleTree) (pk : List Nat) :
    Option Nat :=
  (pubkeyToIndexM ph pk).map fun index => (mapGet t.leaves index).getD 0

/-- `isBlacklisted` under the initialization gate. -/
def isBlacklistedM (ph : HashOracle) (t : SparseMerkleTree) (pk : List Nat) :
    Option Bool :=
  (getM ph t pk).map (fun v => decide (v ≠ 0))

/-- One `getRoot` fold level under the initialization gate. -/
def foldStepM (ph : HashOracle) (defaults : List Nat) (level : Nat)
    (cur : Leaves) : Option Leaves :=
  cur.foldlM
    (fun next e => do
      let sibling := (mapGet cur
        (if (e.1 &&& 1) == 1 then e.1 - 1 else e.1 + 1)).getD
        (defaults.getD level 0)
      let left := if (e.1 &&& 1) == 1 then sibling else e.2
      let right := if (e.1 &&& 1) == 1 then e.2 else sibling
      let pv ← poseidonHash2M ph left right
      pure (mapSet next (e.1 >>> 1) pv))
    []

/-- The `getRoot` level chain under the initialization gate. -/
def rootLevelsM (ph : HashOracle) (defaults : List Nat) (leaves : Leaves) :
    Nat → Option Leaves
  | 0 => some leaves
  | l + 1 => do
    let cur ← rootLevelsM ph defaults leaves l
    foldStepM ph defaults l cur

/-- `getRoot` under the initialization gate: the empty-tree branch reads
only the precomputed ladder and performs no hashing. -/
def getRootM (ph : HashOracle) (t : SparseMerkleTree) : Option Nat :=
  if t.leaves.length = 0 then
    some (t.defaultHashes.getD TREE_DEPTH 0)
  else do
    let top ← rootLevelsM ph t.defaultHashes t.leaves TREE_DEPTH
    pure ((mapGet top 0).getD (t.defaultHashes.getD TREE_DEPTH 0))

/-- One `getMerkleProof` fold level under the initialization gate. -/
def proofFoldStepM (ph : HashOracle) (defaults : List Nat) (level : Nat)
    (cur : Leaves) : Option Leaves := do
  let acc ← cur.foldlM
    (fun (acc : Leaves × List Nat) e =>
      if acc.2.contains (e.1 >>> 1) then pure acc
      else do
        let sib := (mapGet cur
          (if (e.1 &&& 1) == 1 then e.1 - 1 else e.1 + 1)).getD
          (defaults.getD level 0)
        let left := if (e.1 &&& 1) == 1 then sib else e.2
        let right := if (e.1 &&& 1) == 1 then e.2 else sib
        let pv ← poseidonHash2M ph left right
        pure (mapSet acc.1 (e.1 >>> 1) pv, (e.1 >>> 1) :: acc.2))
    (([], []) : Leaves × List Nat)
  pure acc.1

/-- The `getMerkleProof` level chain under the initialization gate. -/
def proofLevelsM (ph : HashOracle) (defaults : List Nat) (leaves : Leaves) :
    Nat → Option Leaves
  | 0 => some leaves
  | l + 1 => do
    let cur ← proofLevelsM ph defaults leaves l
    proofFoldStepM ph defaults l cur

/-- `getMerkleProof` under the initialization gate: the very first action,
deriving the leaf index, already consumes the oracle. -/
def getMerkleProofM (ph : HashOracle) (t : SparseMerkleTree)
    (pk : List Nat) : Option (List Nat × Nat) := do
  let index ← pubkeyToIndexM ph pk
  let pathBits := getPathBits index
  let leafValue := (mapGet t.leaves index).getD 0
  let siblings ← (List.range TREE_DEPTH).mapM (fun level => do
    let cur ← proofLevelsM ph t.defaultHashes t.leaves level
    let pos := posAtLevel pathBits level
    let sibPos := if pathBits.getD level false then pos - 1 else pos + 1
    pure ((mapGet cur sibPos).getD (t.defaultHashes.getD level 0)))
  pure (siblings, leafValue)

/-! ## Concrete instances -/

/-- A 32-byte identity of zero bytes. -/
def pkA : List Nat := List.replicate 32 0

/-- A 32-byte identity of `0x02` bytes. -/
def pkC : List Nat := List.replicate 32 2

/-- The leaf index the stand-in oracle derives for `pkA`. -/
def idxA : Nat := (pubkeyToIndex testHash pkA).getD 0

/-- The leaf index the stand-in oracle derives for `pkC`. -/
def idxC : Nat := (pubkeyToIndex testHash pkC).getD 0

/-- The engine state after blacklisting `pkA` with value 1. -/
def treeA : SparseMerkleTree :=
  ⟨[(idxA, 1)], (SparseMerkleTree.new testHash).defaultHashes⟩

/-- The engine state after inserting `pkA` with value 5. -/
def treeA5 : SparseMerkleTree :=
  ⟨[(idxA, 5)], (SparseMerkleTree.new testHash).defaultHashes⟩

/-- The engine state after overwriting `pkA`'s leaf with value 7. -/
def treeA7 : SparseMerkleTree :=
  ⟨[(idxA, 7)], (SparseMerkleTree.new testHash).defaultHashes⟩

/-- Two leaves, inserted in one order. -/
def treeP1 : SparseMerkleTree :=
  ⟨[(1, 5), (2, 6)], (SparseMerkleTree.new testHash).defaultHashes⟩

/-- The same two leaves, inserted in the other order. -/
def treeP2 : SparseMerkleTree :=
  ⟨[(2, 6), (1, 5)], (SparseMerkleTree.new testHash).defaultHashes⟩

/-- A one-leaf state used to exercise the `getRoot` fold. -/
def treeB : SparseMerkleTree :=
  ⟨[(3, 7)], (SparseMerkleTree.new testHash).defaultHashes⟩


/-! ## Properties of the JS-Map embedding -/

theorem mapGet_mem : ∀ (m : Leaves) (k v : Nat), KeysNodup m → (k, v) ∈ m →
    mapGet m k = some v
  | [], _, _, _, hm => by cases hm
  | (a, b) :: m, k, v, hnd, hm => by
    have hnd' : a ∉ m.map Prod.fst ∧ KeysNodup m := by
      simpa [KeysNodup] using hnd
    rcases List.mem_cons.mp hm with h | h
    · cases h
      simp [mapGet, List.find?]
    · have hk : a ≠ k := by
        intro h'
        exact hnd'.1 (h' ▸ List.mem_map_of_mem Prod.fst h)
    
      have : mapGet m k = some v := mapGet_mem m k v hnd'.2 h
      simpa [mapGet, List.find?_cons_of_neg, hk] using this

theorem mapSet_of_present (m : Leaves) (k v : Nat)
    (hp : (m.find? (fun e => e.1 == k)).isSome) :
    mapSet m k v = m.map (fun e => if e.1 == k then (k, v) else e) := by
  unfold mapSet
  rw [if_pos hp]

theorem mapSet_of_absent (m : Leaves) (k v : Nat)
    (hp : ¬ (m.find? (fun e => e.1 == k)).isSome = true) :
    mapSet m k v = m ++ [(k, v)] := by
  unfold mapSet
  rw [if_neg hp]

theorem mapGet_isSome_iff (m : Leaves) (k : Nat) :
    (mapGet m k).isSome ↔ ∃ v, (k, v) ∈ m := by
  unfold mapGet
  cases hf : m.find? (fun e => e.1 == k) with
  | none =>
    simp only [Option.map_none', Option.isSome_none, Bool.false_eq_true,
      false_iff]
    rintro ⟨v, hv⟩
    have := List.find?_eq_none.mp hf (k, v) hv
    simp at this
  | some e =>
    simp only [Option.map_some', Option.isSome_some, true_iff]
    have hek : e.1 = k := by simpa using List.find?_some hf
    have hm := List.mem_of_find?_eq_some hf
    refine ⟨e.2, ?_⟩
    obtain ⟨a, b⟩ := e
    simp only at hek
    subst hek
    exact hm

theorem find?_map_replace_self (m : Leaves) (k v : Nat)
    (hp : (m.find? (fun e => e.1 == k)).isSome) :
    (m.map (fun e => if e.1 == k then (k, v) else e)).find? (fun e => e.1 == k)
      = some (k, v) := by
  induction m with
  | nil => simp at hp
  | cons a m ih =>
    by_cases ha : a.1 = k
    · simp [ha]
    · have hp' : (m.find? (fun e => e.1 == k)).isSome := by
        simpa [List.find?_cons_of_neg, ha] using hp
      simpa [List.find?_cons_of_neg, ha] using ih hp'

theorem find?_map_replace_ne (m : Leaves) (k v p : Nat) (hne : p ≠ k) :
    (m.map (fun e => if e.1 == k then (k, v) else e)).find? (fun e => e.1 == p)
      = m.find? (fun e => e.1 == p) := by
  induction m with
  | nil => simp
  | cons a m ih =>
    by_cases ha : a.1 = k
    · have h1 : ¬ (k == p) = true := by simpa using (Ne.symm hne)
      have h2 : ¬ (a.1 == p) = true := by simpa [ha] using (Ne.symm hne)
      simp only [List.map_cons, ha]
      rw [if_pos (by simpa using ha)]
      rw [List.find?_cons_of_neg _ (by simpa using h1),
        List.find?_cons_of_neg _ (by simpa using h2)]
      exact ih
    · simp only [List.map_cons]
      rw [if_neg (by simpa using ha)]
      by_cases hap : a.1 = p
      · rw [List.find?_cons_of_pos _ (by simpa using hap),
          List.find?_cons_of_pos _ (by simpa using hap)]
      · rw [List.find?_cons_of_neg _ (by simpa using hap),
          List.find?_cons_of_neg _ (by simpa using hap)]
        exact ih

theorem mapGet_mapSet (m : Leaves) (k v p : Nat) :
    mapGet (mapSet m k v) p = if p = k then some v else mapGet m p := by
  by_cases hp : (m.find? (fun e => e.1 == k)).isSome
  · rw [mapSet_of_present m k v hp]
    by_cases hpk : p = k
    · subst hpk
      unfold mapGet
      rw [find?_map_replace_self m p v hp, if_pos rfl]
      rfl
    · unfold mapGet
      rw [find?_map_replace_ne m k v p hpk, if_neg hpk]
  · rw [mapSet_of_absent m k v hp]
    unfold mapGet
    rw [List.find?_append]
    by_cases hpk : p = k
    · subst hpk
      rw [Option.not_isSome_iff_eq_none.mp hp]
      simp [List.find?]
    · have hsing : ([((k, v) : Nat × Nat)].find? (fun e => e.1 == p)) = none := by
        rw [List.find?_cons_of_neg _ (by simpa using Ne.symm hpk)]
        rfl
      rw [hsing, if_neg hpk]
      cases m.find? (fun e => e.1 == p) <;> rfl

theorem keys_mapSet_of_present (m : Leaves) (k v : Nat)
    (hp : (m.find? (fun e => e.1 == k)).isSome) :
    (mapSet m k v).map Prod.fst = m.map Prod.fst := by
  unfold mapSet
  rw [if_pos hp, List.map_map]
  refine List.map_congr_left ?_
  intro e _
  by_cases he : e.1 = k
  · simp [he]
  · simp [he]

theorem KeysNodup_mapSet (m : Leaves) (k v : Nat) (hnd : KeysNodup m) :
    KeysNodup (mapSet m k v) := by
  by_cases hp : (m.find? (fun e => e.1 == k)).isSome
  · unfold KeysNodup
    rw [keys_mapSet_of_present m k v hp]
    exact hnd
  · unfold KeysNodup mapSet
    rw [if_neg hp]
    rw [List.map_append, List.nodup_append]
    refine ⟨hnd, by simp, ?_⟩
    intro a ha hb
    have hak : a = k := by simpa using hb
    subst hak
    have := List.find?_eq_none.mp (Option.not_isSome_iff_eq_none.mp hp)
    rcases List.mem_map.mp ha with ⟨e, he, hfst⟩
    exact (this e he) (by simpa using hfst)

theorem mem_mapSet_key (m : Leaves) (k v : Nat) (e : Nat × Nat)
    (he : e ∈ mapSet m k v) (hkey : e.1 = k) : e = (k, v) := by
  unfold mapSet at he
  by_cases hp : (m.find? (fun e => e.1 == k)).isSome
  · rw [if_pos hp] at he
    rcases List.mem_map.mp he with ⟨e0, _, hfe⟩
    by_cases h0 : e0.1 = k
    · rw [if_pos (by simpa using h0)] at hfe
      exact hfe.symm
    · rw [if_neg (by simpa using h0)] at hfe
      exact absurd (hfe ▸ hkey) h0
  · rw [if_neg hp] at he
    rcases List.mem_append.mp he with h | h
    · have := List.find?_eq_none.mp (Option.not_isSome_iff_eq_none.mp hp) e h
      exact absurd (by simpa using hkey) this
    · simpa using h

theorem mapSet_mapSet_same (m : Leaves) (k v : Nat) :
    mapSet (mapSet m k v) k v = mapSet m k v := by
  have hsome : ((mapSet m k v).find? (fun e => e.1 == k)).isSome := by
    have h := mapGet_mapSet m k v k
    rw [if_pos rfl] at h
    unfold mapGet at h
    rcases Option.map_eq_some'.mp h with ⟨e, he, _⟩
    simp [he]
  rw [mapSet_of_present (mapSet m k v) k v hsome]
  have : ∀ e ∈ mapSet m k v,
      (if e.1 == k then ((k, v) : Nat × Nat) else e) = e := by
    intro e he
    by_cases hek : e.1 = k
    · rw [if_pos (by simpa using hek)]
      exact (mem_mapSet_key m k v e he hek).symm
    · rw [if_neg (by simpa using hek)]
  rw [List.map_congr_left this]
  simp

/-! ## Extensional characterization of one fold level -/

theorem foldl_mapSet_lookup (key val : Nat × Nat → Nat) (p V : Nat) :
    ∀ (l : Leaves) (acc : Leaves), (∀ e ∈ l, key e = p → val e = V) →
      mapGet (l.foldl (fun next e => mapSet next (key e) (val e)) acc) p =
        if l.any (fun e => key e == p) then some V else mapGet acc p
  | [], acc, _ => by simp
  | e :: l, acc, hV => by
    rw [List.foldl_cons,
      foldl_mapSet_lookup key val p V l _
        (fun e' he' h' => hV e' (List.mem_cons_of_mem e he') h')]
    by_cases hany : l.any (fun e => key e == p)
    · rw [if_pos hany, if_pos (by simp [List.any_cons, hany])]
    · rw [if_neg hany, mapGet_mapSet]
      by_cases hep : p = key e
      · rw [if_pos hep, hV e (List.mem_cons_self e l) hep.symm,
          if_pos (by simp [List.any_cons, hep.symm])]
      · have hne : ¬ key e = p := fun h => hep h.symm
        rw [if_neg hep, if_neg (by simp [List.any_cons, hany, hne])]

theorem foldl_proofStep_lookup (key val : Nat × Nat → Nat) (p V : Nat) :
    ∀ (l : Leaves) (next : Leaves) (processed : List Nat),
      (∀ e ∈ l, key e = p → val e = V) →
      mapGet ((l.foldl
          (fun acc e =>
            if acc.2.contains (key e) then acc
            else (mapSet acc.1 (key e) (val e), key e :: acc.2))
          (next, processed)).1) p =
        if processed.contains p then mapGet next p
        else if l.any (fun e => key e == p) then some V else mapGet next p
  | [], next, processed, _ => by
    by_cases hc : processed.contains p <;> simp [hc]
  | e :: l, next, processed, hV => by
    rw [List.foldl_cons]
    have hV' : ∀ e' ∈ l, key e' = p → val e' = V :=
      fun e' he' h' => hV e' (List.mem_cons_of_mem e he') h'
    by_cases hc : processed.contains (key e)
    · rw [if_pos hc, foldl_proofStep_lookup key val p V l next processed hV']
      by_cases hp : processed.contains p
      · rw [if_pos hp, if_pos hp]
      · have hne : ¬ key e = p := fun h => hp (h ▸ hc)
        rw [if_neg hp, if_neg hp,
          show (e :: l).any (fun e => key e == p) = l.any (fun e => key e == p) by
            simp [List.any_cons, hne]]
    · rw [if_neg hc, foldl_proofStep_lookup key val p V l _ _ hV']
      by_cases hp : (key e :: processed).contains p
      · rw [if_pos hp]
        rcases (by simpa using hp : p = key e ∨ processed.contains p = true) with h | h
        · subst h
          rw [mapGet_mapSet, if_pos rfl, hV e (List.mem_cons_self e l) rfl,
            if_neg hc, if_pos (by simp [List.any_cons])]
        · have hne : ¬ p = key e := fun h' => hc (h' ▸ h)
          rw [mapGet_mapSet, if_neg hne, if_pos h]
      · have hne : ¬ p = key e := fun h => hp (by simp [h])
        have hne' : ¬ key e = p := fun h => hne h.symm
        have hnp : ¬ processed.contains p = true := fun h =>
          hp (by simp [h, List.mem_of_elem_eq_true h])
        rw [if_neg hp, if_neg hnp, mapGet_mapSet, if_neg hne,
          show (e :: l).any (fun e => key e == p) = l.any (fun e => key e == p) by
            simp [List.any_cons, hne']]

theorem any_parent_iff (cur : Leaves) (p : Nat) :
    cur.any (fun e => (e.1 >>> 1) == p)
      = ((mapGet cur (2 * p)).isSome || (mapGet cur (2 * p + 1)).isSome) := by
  rw [Bool.eq_iff_iff, List.any_eq_true, Bool.or_eq_true]
  constructor
  · rintro ⟨⟨a, b⟩, he, hkey⟩
    have hkp : a >>> 1 = p := by simpa using hkey
    rw [Nat.shiftRight_one] at hkp
    rcases (by omega : a = 2 * p ∨ a = 2 * p + 1) with h | h
    · exact Or.inl ((mapGet_isSome_iff cur (2 * p)).mpr ⟨b, h ▸ he⟩)
    · exact Or.inr ((mapGet_isSome_iff cur (2 * p + 1)).mpr ⟨b, h ▸ he⟩)
  · rintro (h | h)
    · rcases (mapGet_isSome_iff cur (2 * p)).mp h with ⟨v, hv⟩
      refine ⟨(2 * p, v), hv, ?_⟩
      rw [Nat.shiftRight_one]
      simp only [beq_iff_eq]
      omega
    · rcases (mapGet_isSome_iff cur (2 * p + 1)).mp h with ⟨v, hv⟩
      refine ⟨(2 * p + 1, v), hv, ?_⟩
      rw [Nat.shiftRight_one]
      simp only [beq_iff_eq]
      omega

theorem parent_val_spec (h2 : Nat → Nat → Nat) (dl : Nat) (cur : Leaves)
    (hnd : KeysNodup cur) (p : Nat) (a b : Nat) (he : (a, b) ∈ cur)
    (hkey : a >>> 1 = p) :
    h2 (if ((a &&& 1) == 1) then
          (mapGet cur (if ((a &&& 1) == 1) then a - 1 else a + 1)).getD dl
        else b)
       (if ((a &&& 1) == 1) then b
        else (mapGet cur (if ((a &&& 1) == 1) then a - 1 else a + 1)).getD dl)
      = h2 ((mapGet cur (2 * p)).getD dl) ((mapGet cur (2 * p + 1)).getD dl) := by
  rw [Nat.shiftRight_one] at hkey
  rcases (by omega : a = 2 * p ∨ a = 2 * p + 1) with h | h
  · subst h
    have ha : ((2 * p &&& 1) == 1) = false := by
      rw [Nat.and_one_is_mod]
      simp only [beq_eq_false_iff_ne, ne_eq]
      omega
    rw [ha]
    simp only [Bool.false_eq_true, if_false]
    rw [mapGet_mem cur (2 * p) b hnd he]
    rfl
  · subst h
    have ha : ((2 * p + 1 &&& 1) == 1) = true := by
      rw [Nat.and_one_is_mod]
      simp only [beq_iff_eq]
      omega
    rw [ha]
    simp only [if_true]
    rw [mapGet_mem cur (2 * p + 1) b hnd he,
      show 2 * p + 1 - 1 = 2 * p by omega]
    rfl

theorem mapGet_foldStep (h2 : Nat → Nat → Nat) (defaults : List Nat)
    (level : Nat) (cur : Leaves) (hnd : KeysNodup cur) (p : Nat) :
    mapGet (foldStep h2 defaults level cur) p
      = parentFun h2 (defaults.getD level 0) (mapGet cur) p := by
  have h := foldl_mapSet_lookup (fun e => e.1 >>> 1)
    (fun e =>
      h2 (if ((e.1 &&& 1) == 1) then
            (mapGet cur (if ((e.1 &&& 1) == 1) then e.1 - 1 else e.1 + 1)).getD
              (defaults.getD level 0)
          else e.2)
         (if ((e.1 &&& 1) == 1) then e.2
          else (mapGet cur (if ((e.1 &&& 1) == 1) then e.1 - 1 else e.1 + 1)).getD
            (defaults.getD level 0)))
    p
    (h2 ((mapGet cur (2 * p)).getD (defaults.getD level 0))
        ((mapGet cur (2 * p + 1)).getD (defaults.getD level 0)))
    cur []
    (by
      rintro ⟨a, b⟩ he hkey
      exact parent_val_spec h2 (defaults.getD level 0) cur hnd p a b he hkey)
  refine Eq.trans (h.trans ?_) rfl
  unfold parentFun
  rw [show (cur.any fun e => (fun e => e.1 >>> 1) e == p)
        = cur.any (fun e => (e.1 >>> 1) == p) from rfl,
    any_parent_iff cur p]
  by_cases hc : ((mapGet cur (2 * p)).isSome || (mapGet cur (2 * p + 1)).isSome) = true
  · rw [if_pos hc, if_pos hc]
  · rw [if_neg hc, if_neg hc]
    rfl

theorem mapGet_proofFoldStep (h2 : Nat → Nat → Nat) (defaults : List Nat)
    (level : Nat) (cur : Leaves) (hnd : KeysNodup cur) (p : Nat) :
    mapGet (proofFoldStep h2 defaults level cur) p
      = parentFun h2 (defaults.getD level 0) (mapGet cur) p := by
  have h := foldl_proofStep_lookup (fun e => e.1 >>> 1)
    (fun e =>
      h2 (if ((e.1 &&& 1) == 1) then
            (mapGet cur (if ((e.1 &&& 1) == 1) then e.1 - 1 else e.1 + 1)).getD
              (defaults.getD level 0)
          else e.2)
         (if ((e.1 &&& 1) == 1) then e.2
          else (mapGet cur (if ((e.1 &&& 1) == 1) then e.1 - 1 else e.1 + 1)).getD
            (defaults.getD level 0)))
    p
    (h2 ((mapGet cur (2 * p)).getD (defaults.getD level 0))
        ((mapGet cur (2 * p + 1)).getD (defaults.getD level 0)))
    cur [] []
    (by
      rintro ⟨a, b⟩ he hkey
      exact parent_val_spec h2 (defaults.getD level 0) cur hnd p a b he hkey)
  refine Eq.trans (h.trans ?_) rfl
  rw [show (([] : List Nat).contains p) = false from rfl]
  simp only [Bool.false_eq_true, if_false]
  unfold parentFun
  rw [show (cur.any fun e => (fun e => e.1 >>> 1) e == p)
        = cur.any (fun e => (e.1 >>> 1) == p) from rfl,
    any_parent_iff cur p]
  by_cases hc : ((mapGet cur (2 * p)).isSome || (mapGet cur (2 * p + 1)).isSome) = true
  · rw [if_pos hc, if_pos hc]
  · rw [if_neg hc, if_neg hc]
    rfl

theorem KeysNodup_foldl_mapSet (key val : Nat × Nat → Nat) :
    ∀ (l : Leaves) (acc : Leaves), KeysNodup acc →
      KeysNodup (l.foldl (fun next e => mapSet next (key e) (val e)) acc)
  | [], _, h => h
  | e :: l, acc, h => by
    rw [List.foldl_cons]
    exact KeysNodup_foldl_mapSet key val l _ (KeysNodup_mapSet _ _ _ h)

theorem KeysNodup_foldStep (h2 : Nat → Nat → Nat) (defaults : List Nat)
    (level : Nat) (cur : Leaves) : KeysNodup (foldStep h2 defaults level cur) :=
  KeysNodup_foldl_mapSet
    (fun e => e.1 >>> 1)
    (fun e =>
      h2 (if ((e.1 &&& 1) == 1) then
            (mapGet cur (if ((e.1 &&& 1) == 1) then e.1 - 1 else e.1 + 1)).getD
              (defaults.getD level 0)
          else e.2)
         (if ((e.1 &&& 1) == 1) then e.2
          else (mapGet cur (if ((e.1 &&& 1) == 1) then e.1 - 1 else e.1 + 1)).getD
            (defaults.getD level 0)))
    cur [] List.nodup_nil

theorem KeysNodup_proof_foldl (key val : Nat × Nat → Nat) :
    ∀ (l : Leaves) (next : Leaves) (processed : List Nat), KeysNodup next →
      KeysNodup ((l.foldl
        (fun acc e =>
          if acc.2.contains (key e) then acc
          else (mapSet acc.1 (key e) (val e), key e :: acc.2))
        (next, processed)).1)
  | [], _, _, h => h
  | e :: l, next, processed, h => by
    rw [List.foldl_cons]
    by_cases hc : processed.contains (key e)
    · rw [if_pos hc]
      exact KeysNodup_proof_foldl key val l next processed h
    · rw [if_neg hc]
      exact KeysNodup_proof_foldl key val l _ _ (KeysNodup_mapSet _ _ _ h)

theorem KeysNodup_proofFoldStep (h2 : Nat → Nat → Nat) (defaults : List Nat)
    (level : Nat) (cur : Leaves) :
    KeysNodup (proofFoldStep h2 defaults level cur) :=
  KeysNodup_proof_foldl
    (fun e => e.1 >>> 1)
    (fun e =>
      h2 (if ((e.1 &&& 1) == 1) then
            (mapGet cur (if ((e.1 &&& 1) == 1) then e.1 - 1 else e.1 + 1)).getD
              (defaults.getD level 0)
          else e.2)
         (if ((e.1 &&& 1) == 1) then e.2
          else (mapGet cur (if ((e.1 &&& 1) == 1) then e.1 - 1 else e.1 + 1)).getD
            (defaults.getD level 0)))
    cur [] [] List.nodup_nil

theorem KeysNodup_rootLevels (h2 : Nat → Nat → Nat) (defaults : List Nat)
    (leaves : Leaves) (hnd : KeysNodup leaves) :
    ∀ l, KeysNodup (rootLevels h2 defaults leaves l)
  | 0 => hnd
  | _ + 1 => KeysNodup_foldStep h2 defaults _ _

theorem KeysNodup_proofLevels (h2 : Nat → Nat → Nat) (defaults : List Nat)
    (leaves : Leaves) (hnd : KeysNodup leaves) :
    ∀ l, KeysNodup (proofLevels h2 defaults leaves l)
  | 0 => hnd
  | _ + 1 => KeysNodup_proofFoldStep h2 defaults _ _

/-! ## The abstract level chain -/

theorem levelFun_congr (h2 : Nat → Nat → Nat) (dds : Nat → Nat)
    (f g : Nat → Option Nat) (hfg : ∀ p, f p = g p) :
    ∀ l p, levelFun h2 dds f l p = levelFun h2 dds g l p
  | 0, p => hfg p
  | l + 1, p => by
    unfold levelFun parentFun
    rw [levelFun_congr h2 dds f g hfg l (2 * p),
      levelFun_congr h2 dds f g hfg l (2 * p + 1)]

theorem levelFun_dds_congr (h2 : Nat → Nat → Nat) (dds1 dds2 : Nat → Nat)
    (f0 : Nat → Option Nat) :
    ∀ l, (∀ i, i < l → dds1 i = dds2 i) →
      ∀ p, levelFun h2 dds1 f0 l p = levelFun h2 dds2 f0 l p
  | 0, _, _ => rfl
  | l + 1, hdd, p => by
    unfold levelFun parentFun
    rw [hdd l (by omega),
      levelFun_dds_congr h2 dds1 dds2 f0 l (fun i hi => hdd i (by omega)) (2 * p),
      levelFun_dds_congr h2 dds1 dds2 f0 l (fun i hi => hdd i (by omega))
        (2 * p + 1)]

theorem mapGet_rootLevels (h2 : Nat → Nat → Nat) (defaults : List Nat)
    (leaves : Leaves) (hnd : KeysNodup leaves) :
    ∀ l p, mapGet (rootLevels h2 defaults leaves l) p
      = levelFun h2 (fun i => defaults.getD i 0) (mapGet leaves) l p
  | 0, _ => rfl
  | l + 1, p => by
    unfold rootLevels levelFun
    rw [mapGet_foldStep h2 defaults l _
      (KeysNodup_rootLevels h2 defaults leaves hnd l) p]
    unfold parentFun
    rw [mapGet_rootLevels h2 defaults leaves hnd l (2 * p),
      mapGet_rootLevels h2 defaults leaves hnd l (2 * p + 1)]

theorem mapGet_proofLevels (h2 : Nat → Nat → Nat) (defaults : List Nat)
    (leaves : Leaves) (hnd : KeysNodup leaves) :
    ∀ l p, mapGet (proofLevels h2 defaults leaves l) p
      = levelFun h2 (fun i => defaults.getD i 0) (mapGet leaves) l p
  | 0, _ => rfl
  | l + 1, p => by
    unfold proofLevels levelFun
    rw [mapGet_proofFoldStep h2 defaults l _
      (KeysNodup_proofLevels h2 defaults leaves hnd l) p]
    unfold parentFun
    rw [mapGet_proofLevels h2 defaults leaves hnd l (2 * p),
      mapGet_proofLevels h2 defaults leaves hnd l (2 * p + 1)]

/-! ## Bit-level facts about path extraction -/

theorem and_one_beq_testBit (v : Nat) : ((v &&& 1) == 1) = v.testBit 0 := by
  rw [Nat.and_one_is_mod, Nat.testBit_to_div_mod]
  rcases Nat.mod_two_eq_zero_or_one v with h | h <;>
    simp [Nat.pow_zero, Nat.div_one, h]

theorem getPathBitsAux_getD :
    ∀ (n val i : Nat), i < n →
      (getPathBitsAux val n).getD i false = val.testBit i
  | 0, _, _, hi => by omega
  | n + 1, val, 0, _ => by
    unfold getPathBitsAux
    rw [List.getD_cons_zero, and_one_beq_testBit]
  | n + 1, val, i + 1, hi => by
    unfold getPathBitsAux
    rw [List.getD_cons_succ,
      getPathBitsAux_getD n (val >>> 1) i (by omega),
      Nat.testBit_shiftRight, Nat.add_comm 1 i]

theorem getPathBits_getD (index i : Nat) (hi : i < TREE_DEPTH) :
    (getPathBits index).getD i false = index.testBit i :=
  getPathBitsAux_getD TREE_DEPTH index i hi

theorem testBit_posFold (b : Nat → Bool) :
    ∀ (m i : Nat),
      (((List.range m).foldl
          (fun pos j => if b j then pos ||| (1 <<< j) else pos) 0)).testBit i
        = (decide (i < m) && b i)
  | 0, i => by simp [Nat.zero_testBit]
  | m + 1, i => by
    rw [List.range_succ, List.foldl_append, List.foldl_cons, List.foldl_nil]
    have hd : (decide (i < m)) = (decide (i < m + 1)) ∨ i = m := by
      by_cases him : i = m
      · exact Or.inr him
      · refine Or.inl ?_
        by_cases hlt : i < m
        · simp [hlt, show i < m + 1 by omega]
        · simp [hlt, show ¬ i < m + 1 by omega]
    by_cases hb : b m
    · rw [if_pos hb, Nat.one_shiftLeft, Nat.testBit_lor, testBit_posFold b m i]
      rcases hd with hd | hd
      · rw [Nat.testBit_two_pow_of_ne (fun h => by
            rcases hd with hd
            have : decide (m < m) = decide (m < m + 1) := h ▸ hd
            simp [Nat.lt_irrefl, Nat.lt_succ_self] at this),
          Bool.or_false, hd]
      · subst hd
        simp [Nat.testBit_two_pow_self, hb, Nat.lt_irrefl, Nat.lt_succ_self]
    · rw [if_neg hb, testBit_posFold b m i]
      rcases hd with hd | hd
      · rw [hd]
      · subst hd
        have hb' : b i = false := by
          cases h : b i
          · rfl
          · exact absurd h hb
        simp [hb', Nat.lt_irrefl, Nat.lt_succ_self]

theorem posAtLevel_eq (index level : Nat) :
    posAtLevel (getPathBits index) level
      = (index >>> level) % 2 ^ (TREE_DEPTH - level) := by
  apply Nat.eq_of_testBit_eq
  intro i
  have h := testBit_posFold
    (fun j => (getPathBits index).getD (level + j) false) (TREE_DEPTH - level) i
  refine Eq.trans h ?_
  rw [Nat.testBit_mod_two_pow, Nat.testBit_shiftRight]
  by_cases hi : i < TREE_DEPTH - level
  · rw [getPathBits_getD index (level + i) (by omega)]
  · simp [hi]

theorem posAtLevel_shiftRight (index level : Nat) (hlv : level ≤ TREE_DEPTH)
    (hidx : index < 2 ^ TREE_DEPTH) :
    posAtLevel (getPathBits index) level = index >>> level := by
  rw [posAtLevel_eq index level, Nat.shiftRight_eq_div_pow]
  apply Nat.mod_eq_of_lt
  rw [Nat.div_lt_iff_lt_mul (Nat.pow_pos (by omega))]
  calc index < 2 ^ TREE_DEPTH := hidx
    _ = 2 ^ (TREE_DEPTH - level) * 2 ^ level := by
        rw [← Nat.pow_add, Nat.sub_add_cancel hlv]

theorem shiftRight_depth_eq_zero (index : Nat) (hidx : index < 2 ^ TREE_DEPTH) :
    index >>> TREE_DEPTH = 0 := by
  rw [Nat.shiftRight_eq_div_pow]
  exact Nat.div_eq_of_lt hidx

theorem ladder_getD (h2 : Nat → Nat → Nat) (i : Nat) (hi : i ≤ TREE_DEPTH) :
    ((List.range (TREE_DEPTH + 1)).map (defaultHash h2)).getD i 0
      = defaultHash h2 i := by
  rw [List.getD_eq_getElem?_getD, List.getElem?_map,
    List.getElem?_range (by omega : i < TREE_DEPTH + 1)]
  rfl

/-! ## The running value of the verifier's fold -/

theorem chain_invariant (h2 : Nat → Nat → Nat) (f0 : Nat → Option Nat)
    (idx : Nat) :
    ∀ l, (levelFun h2 (defaultHash h2) f0 l (idx >>> l)).getD (defaultHash h2 l)
      = chainVal h2 f0 idx l
  | 0 => by rw [Nat.shiftRight_zero]; rfl
  | l + 1 => by
    have hbit : idx.testBit l = decide ((idx >>> l) % 2 = 1) := by
      rw [Nat.testBit_to_div_mod, Nat.shiftRight_eq_div_pow]
    rw [show levelFun h2 (defaultHash h2) f0 (l + 1) (idx >>> (l + 1))
          = parentFun h2 (defaultHash h2 l) (levelFun h2 (defaultHash h2) f0 l)
              (idx >>> (l + 1)) from rfl,
      Nat.shiftRight_succ]
    unfold parentFun
    by_cases hb : idx.testBit l
    · have hmod : (idx >>> l) % 2 = 1 := by
        rw [hbit] at hb
        exact of_decide_eq_true hb
      rw [show 2 * (idx >>> l / 2) + 1 = idx >>> l by omega,
        show 2 * (idx >>> l / 2) = (idx >>> l) - 1 by omega]
      by_cases hsome :
          ((levelFun h2 (defaultHash h2) f0 l ((idx >>> l) - 1)).isSome
            || (levelFun h2 (defaultHash h2) f0 l (idx >>> l)).isSome) = true
      · rw [if_pos hsome, Option.getD_some,
          chain_invariant h2 f0 idx l,
          show chainVal h2 f0 idx (l + 1)
            = if idx.testBit l then
                h2 ((levelFun h2 (defaultHash h2) f0 l ((idx >>> l) - 1)).getD
                      (defaultHash h2 l)) (chainVal h2 f0 idx l)
              else
                h2 (chainVal h2 f0 idx l)
                  ((levelFun h2 (defaultHash h2) f0 l ((idx >>> l) + 1)).getD
                      (defaultHash h2 l)) from rfl,
          if_pos hb]
      · rw [if_neg hsome]
        simp only [Bool.or_eq_true, not_or, Bool.not_eq_true] at hsome
        have hn1 : levelFun h2 (defaultHash h2) f0 l ((idx >>> l) - 1) = none := by
          cases hx : levelFun h2 (defaultHash h2) f0 l ((idx >>> l) - 1)
          · rfl
          · rw [hx] at hsome
            simp at hsome
        have hn2 : levelFun h2 (defaultHash h2) f0 l (idx >>> l) = none := by
          cases hx : levelFun h2 (defaultHash h2) f0 l (idx >>> l)
          · rfl
          · rw [hx] at hsome
            simp at hsome
        rw [show chainVal h2 f0 idx (l + 1)
            = if idx.testBit l then
                h2 ((levelFun h2 (defaultHash h2) f0 l ((idx >>> l) - 1)).getD
                      (defaultHash h2 l)) (chainVal h2 f0 idx l)
              else
                h2 (chainVal h2 f0 idx l)
                  ((levelFun h2 (defaultHash h2) f0 l ((idx >>> l) + 1)).getD
                      (defaultHash h2 l)) from rfl,
          if_pos hb,
          ← chain_invariant h2 f0 idx l, hn1, hn2]
        rfl
    · have hmod : (idx >>> l) % 2 = 0 := by
        rw [hbit] at hb
        have := of_decide_eq_false (Bool.not_eq_true _ ▸ hb)
        omega
      rw [show 2 * (idx >>> l / 2) + 1 = (idx >>> l) + 1 by omega,
        show 2 * (idx >>> l / 2) = idx >>> l by omega]
      by_cases hsome :
          ((levelFun h2 (defaultHash h2) f0 l (idx >>> l)).isSome
            || (levelFun h2 (defaultHash h2) f0 l ((idx >>> l) + 1)).isSome) = true
      · rw [if_pos hsome, Option.getD_some,
          chain_invariant h2 f0 idx l,
          show chainVal h2 f0 idx (l + 1)
            = if idx.testBit l then
                h2 ((levelFun h2 (defaultHash h2) f0 l ((idx >>> l) - 1)).getD
                      (defaultHash h2 l)) (chainVal h2 f0 idx l)
              else
                h2 (chainVal h2 f0 idx l)
                  ((levelFun h2 (defaultHash h2) f0 l ((idx >>> l) + 1)).getD
                      (defaultHash h2 l)) from rfl,
          if_neg hb]
      · rw [if_neg hsome]
        simp only [Bool.or_eq_true, not_or, Bool.not_eq_true] at hsome
        have hn1 : levelFun h2 (defaultHash h2) f0 l (idx >>> l) = none := by
          cases hx : levelFun h2 (defaultHash h2) f0 l (idx >>> l)
          · rfl
          · rw [hx] at hsome
            simp at hsome
        have hn2 : levelFun h2 (defaultHash h2) f0 l ((idx >>> l) + 1) = none := by
          cases hx : levelFun h2 (defaultHash h2) f0 l ((idx >>> l) + 1)
          · rfl
          · rw [hx] at hsome
            simp at hsome
        rw [show chainVal h2 f0 idx (l + 1)
            = if idx.testBit l then
                h2 ((levelFun h2 (defaultHash h2) f0 l ((idx >>> l) - 1)).getD
                      (defaultHash h2 l)) (chainVal h2 f0 idx l)
              else
                h2 (chainVal h2 f0 idx l)
                  ((levelFun h2 (defaultHash h2) f0 l ((idx >>> l) + 1)).getD
                      (defaultHash h2 l)) from rfl,
          if_neg hb,
          ← chain_invariant h2 f0 idx l, hn1, hn2]
        rfl

theorem levelFun_none (h2 : Nat → Nat → Nat) (dds : Nat → Nat) :
    ∀ l p, levelFun h2 dds (fun _ => (none : Option Nat)) l p = none
  | 0, _ => rfl
  | l + 1, p => by
    unfold levelFun parentFun
    rw [levelFun_none h2 dds l (2 * p), levelFun_none h2 dds l (2 * p + 1)]
    rfl

theorem getRoot_levelFun (h2 : Nat → Nat → Nat) (t : SparseMerkleTree)
    (hwf : t.WF h2) :
    t.getRoot h2
      = (levelFun h2 (defaultHash h2) (mapGet t.leaves) TREE_DEPTH 0).getD
          (defaultHash h2 TREE_DEPTH) := by
  obtain ⟨hD, hnd⟩ := hwf
  unfold SparseMerkleTree.getRoot
  by_cases hlen : t.leaves.length = 0
  · rw [if_pos hlen]
    have hnil : t.leaves = [] := List.length_eq_zero.mp hlen
    rw [hD, ladder_getD h2 TREE_DEPTH (le_refl _), hnil,
      levelFun_congr h2 (defaultHash h2) (mapGet []) (fun _ => none)
        (fun p => rfl) TREE_DEPTH 0,
      levelFun_none h2 (defaultHash h2) TREE_DEPTH 0]
    rfl
  · rw [if_neg hlen,
      mapGet_rootLevels h2 t.defaultHashes t.leaves hnd TREE_DEPTH 0,
      levelFun_dds_congr h2 (fun i => t.defaultHashes.getD i 0) (defaultHash h2)
        (mapGet t.leaves) TREE_DEPTH
        (fun i hi => by
          show t.defaultHashes.getD i 0 = defaultHash h2 i
          rw [hD, ladder_getD h2 i (by omega)]) 0,
      hD, ladder_getD h2 TREE_DEPTH (le_refl _)]

theorem siblingAt_eq (h2 : Nat → Nat → Nat) (t : SparseMerkleTree)
    (hwf : t.WF h2) (idx : Nat) (hidx : idx < 2 ^ TREE_DEPTH)
    (l : Nat) (hl : l < TREE_DEPTH) :
    siblingAt h2 t.defaultHashes t.leaves idx l
      = (levelFun h2 (defaultHash h2) (mapGet t.leaves) l
          (if idx.testBit l then (idx >>> l) - 1 else (idx >>> l) + 1)).getD
        (defaultHash h2 l) := by
  obtain ⟨hD, hnd⟩ := hwf
  show (mapGet (proofLevels h2 t.defaultHashes t.leaves l)
      (if (getPathBits idx).getD l false then posAtLevel (getPathBits idx) l - 1
        else posAtLevel (getPathBits idx) l + 1)).getD
      (t.defaultHashes.getD l 0)
    = _
  rw [posAtLevel_shiftRight idx l (by omega) hidx,
    getPathBits_getD idx l hl,
    mapGet_proofLevels h2 t.defaultHashes t.leaves hnd l _,
    levelFun_dds_congr h2 (fun i => t.defaultHashes.getD i 0) (defaultHash h2)
      (mapGet t.leaves) l
      (fun i hi => by
        show t.defaultHashes.getD i 0 = defaultHash h2 i
        rw [hD, ladder_getD h2 i (by omega)]) _,
    hD, ladder_getD h2 l (by omega)]

theorem verifyFold_chain (h2 : Nat → Nat → Nat) (f0 : Nat → Option Nat)
    (idx : Nat) :
    ∀ (n l : Nat),
      verifyFoldAux h2 (getPathBitsAux (idx >>> l) n)
        ((List.range n).map (fun j =>
          (levelFun h2 (defaultHash h2) f0 (l + j)
            (if idx.testBit (l + j) then (idx >>> (l + j)) - 1
              else (idx >>> (l + j)) + 1)).getD (defaultHash h2 (l + j))))
        (chainVal h2 f0 idx l)
      = chainVal h2 f0 idx (l + n)
  | 0, l => by
    unfold getPathBitsAux
    rfl
  | n + 1, l => by
    unfold getPathBitsAux
    rw [List.range_succ_eq_map, List.map_cons, List.map_map]
    show verifyFoldAux h2 (_ :: _) (_ :: _) _ = _
    rw [show verifyFoldAux h2
          ((((idx >>> l) &&& 1) == 1) :: getPathBitsAux ((idx >>> l) >>> 1) n)
          (((levelFun h2 (defaultHash h2) f0 (l + 0)
              (if idx.testBit (l + 0) then (idx >>> (l + 0)) - 1
                else (idx >>> (l + 0)) + 1)).getD (defaultHash h2 (l + 0)))
            :: (List.range n).map ((fun j =>
              (levelFun h2 (defaultHash h2) f0 (l + j)
                (if idx.testBit (l + j) then (idx >>> (l + j)) - 1
                  else (idx >>> (l + j)) + 1)).getD (defaultHash h2 (l + j)))
              ∘ Nat.succ))
          (chainVal h2 f0 idx l)
        = verifyFoldAux h2 (getPathBitsAux ((idx >>> l) >>> 1) n)
            ((List.range n).map ((fun j =>
              (levelFun h2 (defaultHash h2) f0 (l + j)
                (if idx.testBit (l + j) then (idx >>> (l + j)) - 1
                  else (idx >>> (l + j)) + 1)).getD (defaultHash h2 (l + j)))
              ∘ Nat.succ))
            (if (((idx >>> l) &&& 1) == 1) then
              h2 ((levelFun h2 (defaultHash h2) f0 (l + 0)
                  (if idx.testBit (l + 0) then (idx >>> (l + 0)) - 1
                    else (idx >>> (l + 0)) + 1)).getD (defaultHash h2 (l + 0)))
                (chainVal h2 f0 idx l)
            else
              h2 (chainVal h2 f0 idx l)
                ((levelFun h2 (defaultHash h2) f0 (l + 0)
                  (if idx.testBit (l + 0) then (idx >>> (l + 0)) - 1
                    else (idx >>> (l + 0)) + 1)).getD (defaultHash h2 (l + 0))))
        from rfl]
    rw [show (((idx >>> l) &&& 1) == 1) = idx.testBit l by
        rw [and_one_beq_testBit, Nat.testBit_shiftRight, Nat.add_zero],
      Nat.add_zero l]
    rw [show (if idx.testBit l then
          h2 ((levelFun h2 (defaultHash h2) f0 l
              (if idx.testBit l then (idx >>> l) - 1 else (idx >>> l) + 1)).getD
              (defaultHash h2 l)) (chainVal h2 f0 idx l)
        else
          h2 (chainVal h2 f0 idx l)
            ((levelFun h2 (defaultHash h2) f0 l
              (if idx.testBit l then (idx >>> l) - 1 else (idx >>> l) + 1)).getD
              (defaultHash h2 l)))
        = chainVal h2 f0 idx (l + 1) by
      by_cases hb : idx.testBit l
      · rw [if_pos hb,
          show chainVal h2 f0 idx (l + 1)
            = if idx.testBit l then
                h2 ((levelFun h2 (defaultHash h2) f0 l ((idx >>> l) - 1)).getD
                      (defaultHash h2 l)) (chainVal h2 f0 idx l)
              else
                h2 (chainVal h2 f0 idx l)
                  ((levelFun h2 (defaultHash h2) f0 l ((idx >>> l) + 1)).getD
                      (defaultHash h2 l)) from rfl,
          if_pos hb, if_pos hb]
      · rw [if_neg hb,
          show chainVal h2 f0 idx (l + 1)
            = if idx.testBit l then
                h2 ((levelFun h2 (defaultHash h2) f0 l ((idx >>> l) - 1)).getD
                      (defaultHash h2 l)) (chainVal h2 f0 idx l)
              else
                h2 (chainVal h2 f0 idx l)
                  ((levelFun h2 (defaultHash h2) f0 l ((idx >>> l) + 1)).getD
                      (defaultHash h2 l)) from rfl,
          if_neg hb, if_neg hb]]
    rw [show (idx >>> l) >>> 1 = idx >>> (l + 1) from (Nat.shiftRight_add idx l 1).symm]
    rw [List.map_congr_left (fun j _ => by
      show (levelFun h2 (defaultHash h2) f0 (l + (j + 1))
          (if idx.testBit (l + (j + 1)) then (idx >>> (l + (j + 1))) - 1
            else (idx >>> (l + (j + 1))) + 1)).getD (defaultHash h2 (l + (j + 1)))
        = (levelFun h2 (defaultHash h2) f0 ((l + 1) + j)
          (if idx.testBit ((l + 1) + j) then (idx >>> ((l + 1) + j)) - 1
            else (idx >>> ((l + 1) + j)) + 1)).getD (defaultHash h2 ((l + 1) + j))
      rw [show l + (j + 1) = (l + 1) + j by omega])]
    rw [verifyFold_chain h2 f0 idx n (l + 1),
      show (l + 1) + n = l + (n + 1) by omega]

/-- Master lemma: for any well-formed tree and any index below `2^254`, the
external verifier's fold over the generated sibling list, starting from the
stored leaf value (`0` when absent), reproduces `getRoot`. -/
theorem fold_reconstructs_root (h2 : Nat → Nat → Nat) (t : SparseMerkleTree)
    (hwf : t.WF h2) (idx : Nat) (hidx : idx < 2 ^ TREE_DEPTH) :
    verifyFoldAux h2 (getPathBits idx)
      ((List.range TREE_DEPTH).map (siblingAt h2 t.defaultHashes t.leaves idx))
      ((mapGet t.leaves idx).getD 0)
    = t.getRoot h2 := by
  rw [List.map_congr_left (fun l hl =>
    siblingAt_eq h2 t hwf idx hidx l (List.mem_range.mp hl))]
  rw [show (mapGet t.leaves idx).getD 0 = chainVal h2 (mapGet t.leaves) idx 0
    from rfl]
  rw [show getPathBits idx = getPathBitsAux (idx >>> 0) TREE_DEPTH by
    rw [Nat.shiftRight_zero]; rfl]
  rw [List.map_congr_left (fun j _ => by
    show (levelFun h2 (defaultHash h2) (mapGet t.leaves) j
        (if idx.testBit j then (idx >>> j) - 1 else (idx >>> j) + 1)).getD
        (defaultHash h2 j)
      = (levelFun h2 (defaultHash h2) (mapGet t.leaves) (0 + j)
        (if idx.testBit (0 + j) then (idx >>> (0 + j)) - 1
          else (idx >>> (0 + j)) + 1)).getD (defaultHash h2 (0 + j))
    rw [Nat.zero_add])]
  rw [verifyFold_chain h2 (mapGet t.leaves) idx TREE_DEPTH 0, Nat.zero_add,
    ← chain_invariant h2 (mapGet t.leaves) idx TREE_DEPTH,
    shiftRight_depth_eq_zero idx hidx,
    getRoot_levelFun h2 t hwf]

/-! ## Reachable states -/

theorem WF_new (h2 : Nat → Nat → Nat) : (SparseMerkleTree.new h2).WF h2 :=
  ⟨rfl, List.nodup_nil⟩

theorem insert_eq (h2 : Nat → Nat → Nat) (t : SparseMerkleTree)
    (pk : List Nat) (v : Nat) (t' : SparseMerkleTree)
    (h : t.insert h2 pk v = some t') :
    ∃ idx, pubkeyToIndex h2 pk = some idx ∧
      t' = ⟨mapSet t.leaves idx v, t.defaultHashes⟩ := by
  unfold SparseMerkleTree.insert at h
  cases hpk : pubkeyToIndex h2 pk with
  | none => rw [hpk] at h; cases h
  | some idx =>
    rw [hpk, Option.map_some'] at h
    exact ⟨idx, rfl, (Option.some.inj h).symm⟩

theorem WF_insert (h2 : Nat → Nat → Nat) (t : SparseMerkleTree)
    (pk : List Nat) (v : Nat) (t' : SparseMerkleTree) (hwf : t.WF h2)
    (h : t.insert h2 pk v = some t') : t'.WF h2 := by
  rcases insert_eq h2 t pk v t' h with ⟨idx, _, rfl⟩
  exact ⟨hwf.1, KeysNodup_mapSet _ _ _ hwf.2⟩

theorem buildTree_aux (h2 : Nat → Nat → Nat) :
    ∀ (ops : List (List Nat × Nat)) (t0 t : SparseMerkleTree),
      (ops.foldlM (fun t op => t.insert h2 op.1 op.2) t0
        : Option SparseMerkleTree) = some t →
      t.defaultHashes = t0.defaultHashes ∧
      (KeysNodup t0.leaves → KeysNodup t.leaves) ∧
      ∀ idx, (∀ op ∈ ops, pubkeyToIndex h2 op.1 ≠ some idx) →
        mapGet t.leaves idx = mapGet t0.leaves idx
  | [], t0, t, h => by
    have h' : some t0 = some t := h
    obtain rfl := Option.some.inj h'
    exact ⟨rfl, id, fun _ _ => rfl⟩
  | op :: ops, t0, t, h => by
    rw [List.foldlM_cons] at h
    cases hins : t0.insert h2 op.1 op.2 with
    | none =>
      rw [hins] at h
      cases h
    | some t1 =>
      rw [hins] at h
      have h' : (ops.foldlM (fun t op => t.insert h2 op.1 op.2) t1
          : Option SparseMerkleTree) = some t := h
      rcases insert_eq h2 t0 op.1 op.2 t1 hins with ⟨idx0, hpk0, ht1⟩
      obtain ⟨hdef, hnd, hget⟩ := buildTree_aux h2 ops t1 t h'
      refine ⟨by rw [hdef, ht1], ?_, ?_⟩
      · intro h0
        apply hnd
        rw [ht1]
        exact KeysNodup_mapSet _ _ _ h0
      · intro idx hnin
        rw [hget idx (fun op' hop' => hnin op' (List.mem_cons_of_mem op hop')),
          ht1]
        show mapGet (mapSet t0.leaves idx0 op.2) idx = mapGet t0.leaves idx
        rw [mapGet_mapSet,
          if_neg (fun heq : idx = idx0 =>
            hnin op (List.mem_cons_self op ops) (by rw [hpk0, heq]))]

theorem buildTree_WF (h2 : Nat → Nat → Nat) (ops : List (List Nat × Nat))
    (t : SparseMerkleTree) (h : buildTree h2 ops = some t) : t.WF h2 := by
  obtain ⟨hdef, hnd, _⟩ := buildTree_aux h2 ops (SparseMerkleTree.new h2) t h
  exact ⟨by rw [hdef]; rfl, hnd List.nodup_nil⟩

theorem buildTree_not_inserted (h2 : Nat → Nat → Nat)
    (ops : List (List Nat × Nat)) (t : SparseMerkleTree) (idx : Nat)
    (h : buildTree h2 ops = some t)
    (hnin : ∀ op ∈ ops, pubkeyToIndex h2 op.1 ≠ some idx) :
    mapGet t.leaves idx = none := by
  obtain ⟨_, _, hget⟩ := buildTree_aux h2 ops (SparseMerkleTree.new h2) t h
  rw [hget idx hnin]
  rfl

theorem getMerkleProof_some (h2 : Nat → Nat → Nat) (t : SparseMerkleTree)
    (pk : List Nat) (idx : Nat) (hpk : pubkeyToIndex h2 pk = some idx) :
    t.getMerkleProof h2 pk
      = some ((List.range TREE_DEPTH).map
            (siblingAt h2 t.defaultHashes t.leaves idx),
          (mapGet t.leaves idx).getD 0) := by
  unfold SparseMerkleTree.getMerkleProof
  rw [hpk, Option.map_some']

/-! ## Claim theorems -/

/-- **C1**: for every 32-byte identity that was never inserted (rendered at
the index level: no performed insertion derived this identity's leaf index —
identities hash to distinct indices under the intended collision-free field
oracle, whose outputs lie below `2^254`), `getMerkleProof` returns
`leafValue = 0` together with 254 siblings such that folding from the leaf
up — starting with `0` and, at level `i`, computing `hash2(current,
siblings[i])` when bit `i` of the leaf index is `0` and `hash2(siblings[i],
current)` when it is `1` — yields exactly `getRoot()` on the same state. -/
theorem smt_exclusion_roundtrip (h2 : Nat → Nat → Nat)
    (ops : List (List Nat × Nat)) (t : SparseMerkleTree)
    (hbt : buildTree h2 ops = some t)
    (pk : List Nat) (idx : Nat) (hpk : pubkeyToIndex h2 pk = some idx)
    (hidx : idx < 2 ^ TREE_DEPTH)
    (hnin : ∀ op ∈ ops, pubkeyToIndex h2 op.1 ≠ some idx) :
    ∃ siblings : List Nat,
      t.getMerkleProof h2 pk = some (siblings, 0) ∧
      siblings.length = TREE_DEPTH ∧
      verifyFoldAux h2 (getPathBits idx) siblings 0 = t.getRoot h2 := by
  have hwf := buildTree_WF h2 ops t hbt
  have habs := buildTree_not_inserted h2 ops t idx hbt hnin
  refine ⟨(List.range TREE_DEPTH).map
    (siblingAt h2 t.defaultHashes t.leaves idx), ?_, by simp, ?_⟩
  · rw [getMerkleProof_some h2 t pk idx hpk, habs]
    rfl
  · have hfold := fold_reconstructs_root h2 t hwf idx hidx
    rw [habs, Option.getD_none] at hfold
    exact hfold

/-- **C2**: after `insert(X, v)` (with X's leaf index below `2^254`, as every
field-reduced index is), `getMerkleProof(X)` returns `leafValue = v` and 254
siblings whose leaf-to-root fold starting from `v` (argument order at each
level chosen by the corresponding path bit: even position = left argument,
odd = right argument) equals `getRoot()` of the post-insert state. -/
theorem smt_inclusion_roundtrip (h2 : Nat → Nat → Nat)
    (t t' : SparseMerkleTree) (hwf : t.WF h2) (pk : List Nat) (v idx : Nat)
    (hpk : pubkeyToIndex h2 pk = some idx) (hidx : idx < 2 ^ TREE_DEPTH)
    (hins : t.insert h2 pk v = some t') :
    ∃ siblings : List Nat,
      t'.getMerkleProof h2 pk = some (siblings, v) ∧
      siblings.length = TREE_DEPTH ∧
      verifyFoldAux h2 (getPathBits idx) siblings v = t'.getRoot h2 := by
  have hwf' : t'.WF h2 := WF_insert h2 t pk v t' hwf hins
  rcases insert_eq h2 t pk v t' hins with ⟨idx', hpk', ht'⟩
  rw [hpk] at hpk'
  rw [show idx' = idx from (Option.some.inj hpk').symm] at ht'
  have hstored : mapGet t'.leaves idx = some v := by
    rw [ht']
    show mapGet (mapSet t.leaves idx v) idx = some v
    rw [mapGet_mapSet, if_pos rfl]
  refine ⟨(List.range TREE_DEPTH).map
    (siblingAt h2 t'.defaultHashes t'.leaves idx), ?_, by simp, ?_⟩
  · rw [getMerkleProof_some h2 t' pk idx hpk, hstored]
    rfl
  · have hfold := fold_reconstructs_root h2 t' hwf' idx hidx
    rw [hstored, Option.getD_some] at hfold
    exact hfold

/-! ## Counting and membership helpers -/

theorem mapGet_some_mem (m : Leaves) (k v : Nat) (h : mapGet m k = some v) :
    (k, v) ∈ m := by
  unfold mapGet at h
  rcases Option.map_eq_some'.mp h with ⟨⟨a, b⟩, hf, hab⟩
  have ha : a = k := by simpa using List.find?_some hf
  have hm := List.mem_of_find?_eq_some hf
  simp only at hab
  subst hab
  subst ha
  exact hm

theorem countP_key_of_present : ∀ (m : Leaves) (k : Nat), KeysNodup m →
    (m.find? (fun e => e.1 == k)).isSome →
    m.countP (fun e => e.1 == k) = 1
  | [], k, _, hp => by simp at hp
  | (a, b) :: m, k, hnd, hp => by
    have hnd' : a ∉ m.map Prod.fst ∧ KeysNodup m := by
      simpa [KeysNodup] using hnd
    by_cases hak : a = k
    · subst hak
      rw [List.countP_cons_of_pos _ _ (by simp)]
      have hz : m.countP (fun e => e.1 == a) = 0 := by
        apply List.countP_eq_zero.mpr
        rintro ⟨a', b'⟩ hm hpred
        have ha' : a' = a := by simpa using hpred
        exact hnd'.1 (ha' ▸ List.mem_map_of_mem Prod.fst hm)
      rw [hz]
    · rw [List.countP_cons_of_neg _ _ (by simpa using hak)]
      apply countP_key_of_present m k hnd'.2
      rwa [List.find?_cons_of_neg _ (by simpa using hak)] at hp

theorem countP_mapSet_self (m : Leaves) (k v : Nat) (hnd : KeysNodup m) :
    (mapSet m k v).countP (fun e => e.1 == k) = 1 := by
  by_cases hp : (m.find? (fun e => e.1 == k)).isSome
  · have hcong : List.countP ((fun e => e.1 == k) ∘
        (fun e => if e.1 == k then ((k, v) : Nat × Nat) else e)) m
        = List.countP (fun e => e.1 == k) m :=
      List.countP_congr (fun e he => by
        by_cases hek : e.1 = k <;> simp [Function.comp, hek])
    rw [mapSet_of_present m k v hp, List.countP_map, hcong]
    exact countP_key_of_present m k hnd hp
  · rw [mapSet_of_absent m k v hp, List.countP_append,
      List.countP_eq_zero.mpr
        (List.find?_eq_none.mp (Option.not_isSome_iff_eq_none.mp hp))]
    simp

/-- **C4**: the default hash ladder computed at construction has exactly 255
entries with `D[0] = 0` and `D[i] = hash2(D[i-1], D[i-1])` for `1 ≤ i ≤ 254`,
and `insert` — the only state-changing operation (`get`, `isBlacklisted`,
`getRoot` and `getMerkleProof` are pure value functions of the state) —
never changes it. -/
theorem default_hash_ladder_spec (h2 : Nat → Nat → Nat) :
    (SparseMerkleTree.new h2).defaultHashes.length = TREE_DEPTH + 1 ∧
    (SparseMerkleTree.new h2).defaultHashes.getD 0 0 = 0 ∧
    (∀ i, 1 ≤ i → i ≤ TREE_DEPTH →
      (SparseMerkleTree.new h2).defaultHashes.getD i 0
        = h2 ((SparseMerkleTree.new h2).defaultHashes.getD (i - 1) 0)
            ((SparseMerkleTree.new h2).defaultHashes.getD (i - 1) 0)) ∧
    (∀ (t t' : SparseMerkleTree) (pk : List Nat) (v : Nat),
      t.insert h2 pk v = some t' → t'.defaultHashes = t.defaultHashes) := by
  refine ⟨by simp [SparseMerkleTree.new], ladder_getD h2 0 (by omega), ?_, ?_⟩
  · intro i h1 h254
    obtain ⟨j, rfl⟩ : ∃ j, i = j + 1 := ⟨i - 1, by omega⟩
    show ((List.range (TREE_DEPTH + 1)).map (defaultHash h2)).getD (j + 1) 0
      = h2 (((List.range (TREE_DEPTH + 1)).map (defaultHash h2)).getD (j + 1 - 1) 0)
          (((List.range (TREE_DEPTH + 1)).map (defaultHash h2)).getD (j + 1 - 1) 0)
    rw [ladder_getD h2 (j + 1) (by omega), show j + 1 - 1 = j by omega,
      ladder_getD h2 j (by omega)]
    rfl
  · intro t t' pk v h
    rcases insert_eq h2 t pk v t' h with ⟨idx, _, rfl⟩
    rfl

/-- **C5**: a freshly constructed engine's `getRoot()` is `D[254]`;
`getEmptyRoot()` returns `D[254]` in every (reachable) tree state; hence a
fresh engine's `getRoot()` equals `getEmptyRoot()`. -/
theorem empty_root_spec (h2 : Nat → Nat → Nat) :
    (SparseMerkleTree.new h2).getRoot h2 = defaultHash h2 TREE_DEPTH ∧
    (∀ t : SparseMerkleTree, t.WF h2 →
      t.getEmptyRoot = defaultHash h2 TREE_DEPTH) ∧
    (SparseMerkleTree.new h2).getRoot h2
      = (SparseMerkleTree.new h2).getEmptyRoot := by
  have hnew : (SparseMerkleTree.new h2).getRoot h2
      = defaultHash h2 TREE_DEPTH := by
    unfold SparseMerkleTree.getRoot
    rw [if_pos (show (SparseMerkleTree.new h2).leaves.length = 0 from rfl)]
    exact ladder_getD h2 TREE_DEPTH (le_refl _)
  refine ⟨hnew, fun t hwf => ?_, ?_⟩
  · unfold SparseMerkleTree.getEmptyRoot
    rw [hwf.1]
    exact ladder_getD h2 TREE_DEPTH (le_refl _)
  · rw [hnew]
    exact (ladder_getD h2 TREE_DEPTH (le_refl _)).symm

/-- **C6**: insertion overwrites by key — after `insert(X, v1)` then
`insert(X, v2)` exactly one leaf is stored at X's index, `get(X) = v2`, and
inserting the same value twice yields the same state (hence the same
`getRoot()`) as inserting it once. -/
theorem insert_overwrite_spec (h2 : Nat → Nat → Nat)
    (t t1 t2 : SparseMerkleTree) (pk : List Nat) (v1 v2 idx : Nat)
    (hwf : t.WF h2) (hpk : pubkeyToIndex h2 pk = some idx)
    (h1 : t.insert h2 pk v1 = some t1) (h2i : t1.insert h2 pk v2 = some t2) :
    t2.leaves.countP (fun e => e.1 == idx) = 1 ∧
    t2.get h2 pk = some v2 ∧
    (v1 = v2 → t2 = t1 ∧ t2.getRoot h2 = t1.getRoot h2) := by
  rcases insert_eq h2 t pk v1 t1 h1 with ⟨i1, hp1, ht1⟩
  rw [hpk] at hp1
  rw [show i1 = idx from (Option.some.inj hp1).symm] at ht1
  rcases insert_eq h2 t1 pk v2 t2 h2i with ⟨i2, hp2, ht2⟩
  rw [hpk] at hp2
  rw [show i2 = idx from (Option.some.inj hp2).symm] at ht2
  have hnd1 : KeysNodup t1.leaves := by
    rw [ht1]
    exact KeysNodup_mapSet _ _ _ hwf.2
  refine ⟨?_, ?_, ?_⟩
  · rw [ht2]
    exact countP_mapSet_self t1.leaves idx v2 hnd1
  · unfold SparseMerkleTree.get
    rw [hpk, Option.map_some', ht2]
    show some ((mapGet (mapSet t1.leaves idx v2) idx).getD 0) = some v2
    rw [mapGet_mapSet, if_pos rfl, Option.getD_some]
  · intro hv
    subst hv
    have heq : t2 = t1 := by
      rw [ht2, ht1]
      show (⟨mapSet (mapSet t.leaves idx v1) idx v1, t.defaultHashes⟩ :
        SparseMerkleTree) = ⟨mapSet t.leaves idx v1, t.defaultHashes⟩
      rw [mapSet_mapSet_same]
    exact ⟨heq, by rw [heq]⟩

/-- **C7**: `getRoot()` is a pure function of the leaf-map contents: two
well-formed engines whose leaf maps hold exactly the same `(index, value)`
pairs — in any insertion order — produce the same root.  (In the embedding
`getRoot` is a function of the state, so repeated calls trivially return the
same value and mutate nothing; the parent of two materialized children is
visited once per child but written with the same combined value, which the
`mapGet_foldStep` characterization used here makes precise.) -/
theorem getRoot_pure_of_leafmap (h2 : Nat → Nat → Nat)
    (t1 t2 : SparseMerkleTree) (hw1 : t1.WF h2) (hw2 : t2.WF h2)
    (hperm : t1.leaves.Perm t2.leaves) :
    t1.getRoot h2 = t2.getRoot h2 := by
  have hlookup : ∀ k, mapGet t1.leaves k = mapGet t2.leaves k := by
    intro k
    cases hg : mapGet t1.leaves k with
    | some v =>
      exact (mapGet_mem t2.leaves k v hw2.2
        (hperm.mem_iff.mp (mapGet_some_mem t1.leaves k v hg))).symm
    | none =>
      cases hg2 : mapGet t2.leaves k with
      | none => rfl
      | some v =>
        have hh := mapGet_mem t1.leaves k v hw1.2
          (hperm.mem_iff.mpr (mapGet_some_mem t2.leaves k v hg2))
        rw [hg] at hh
        cases hh
  rw [getRoot_levelFun h2 t1 hw1, getRoot_levelFun h2 t2 hw2,
    levelFun_congr h2 (defaultHash h2) (mapGet t1.leaves) (mapGet t2.leaves)
      hlookup TREE_DEPTH 0]

theorem levelFun_isSome_of_mem (h2 : Nat → Nat → Nat) (f0 : Nat → Option Nat)
    (k : Nat) (h0 : (f0 k).isSome) :
    ∀ l, (levelFun h2 (defaultHash h2) f0 l (k >>> l)).isSome
  | 0 => by rw [Nat.shiftRight_zero]; exact h0
  | l + 1 => by
    have ih := levelFun_isSome_of_mem h2 f0 k h0 l
    rw [show levelFun h2 (defaultHash h2) f0 (l + 1) (k >>> (l + 1))
          = parentFun h2 (defaultHash h2 l) (levelFun h2 (defaultHash h2) f0 l)
              (k >>> (l + 1)) from rfl,
      Nat.shiftRight_succ]
    unfold parentFun
    rcases (by omega : k >>> l = 2 * (k >>> l / 2)
        ∨ k >>> l = 2 * (k >>> l / 2) + 1) with h | h
    · rw [if_pos (by rw [← h]; simp [ih])]
      rfl
    · rw [if_pos (by rw [← h]; simp [ih])]
      rfl

/-- **C8**: for every well-formed non-empty leaf map whose keys lie below
`2^254` (as every field-reduced leaf index does), the 254-level fold in
`getRoot` terminates with an entry at index 0, so the `D[254]` fallback
branch is never taken: `getRoot` returns the folded value. -/
theorem root_fold_no_fallback (h2 : Nat → Nat → Nat) (t : SparseMerkleTree)
    (hwf : t.WF h2) (hne : t.leaves ≠ [])
    (hb : ∀ e ∈ t.leaves, e.1 < 2 ^ TREE_DEPTH) :
    ∃ r, mapGet (rootLevels h2 t.defaultHashes t.leaves TREE_DEPTH) 0 = some r
      ∧ t.getRoot h2 = r := by
  obtain ⟨hD, hnd⟩ := hwf
  obtain ⟨e, es, hle⟩ := List.exists_cons_of_ne_nil hne
  have hmem : e ∈ t.leaves := by rw [hle]; exact List.mem_cons_self e es
  have h0 : (mapGet t.leaves e.1).isSome := by
    apply (mapGet_isSome_iff t.leaves e.1).mpr
    exact ⟨e.2, by simpa using hmem⟩
  have hsome := levelFun_isSome_of_mem h2 (mapGet t.leaves) e.1 h0 TREE_DEPTH
  rw [shiftRight_depth_eq_zero e.1 (hb e hmem)] at hsome
  have hmg : mapGet (rootLevels h2 t.defaultHashes t.leaves TREE_DEPTH) 0
      = levelFun h2 (defaultHash h2) (mapGet t.leaves) TREE_DEPTH 0 := by
    rw [mapGet_rootLevels h2 t.defaultHashes t.leaves hnd TREE_DEPTH 0,
      levelFun_dds_congr h2 (fun i => t.defaultHashes.getD i 0)
        (defaultHash h2) (mapGet t.leaves) TREE_DEPTH
        (fun i hi => by
          show t.defaultHashes.getD i 0 = defaultHash h2 i
          rw [hD, ladder_getD h2 i (by omega)]) 0]
  rcases Option.isSome_iff_exists.mp hsome with ⟨r, hr⟩
  refine ⟨r, by rw [hmg]; exact hr, ?_⟩
  unfold SparseMerkleTree.getRoot
  rw [if_neg (by rw [hle]; simp), hmg, hr, Option.getD_some]

/-! ## Byte-level characterization of the index derivation -/

theorem leVal_append (xs : List Nat) (b : Nat) :
    leVal (xs ++ [b]) = leVal xs + b * 256 ^ xs.length := by
  induction xs with
  | nil => simp [leVal]
  | cons a xs ih =>
    show a + 256 * leVal (xs ++ [b]) = (a + 256 * leVal xs) + b * 256 ^ (xs.length + 1)
    rw [ih]
    ring

theorem bytes16_foldl_spec (bytes : List Nat) (start : Nat) :
    ∀ n, start + n ≤ bytes.length →
      ((List.range n).foldlM
        (fun (s : Nat × Nat) i =>
          match bytes[start + i]? with
          | some b => some (s.1 + b * s.2, s.2 * 256)
          | none => none)
        ((0, 1) : Nat × Nat) : Option (Nat × Nat))
      = some (leVal ((bytes.drop start).take n), 256 ^ n)
  | 0, _ => rfl
  | n + 1, h => by
    rw [List.range_succ, List.foldlM_append,
      bytes16_foldl_spec bytes start n (by omega)]
    have hget : bytes[start + n]? = some bytes[start + n] :=
      List.getElem?_eq_getElem (by omega)
    show (List.foldlM
        (fun (s : Nat × Nat) i =>
          match bytes[start + i]? with
          | some b => some (s.1 + b * s.2, s.2 * 256)
          | none => none)
        ((leVal ((bytes.drop start).take n), 256 ^ n) : Nat × Nat) [n]
      : Option (Nat × Nat)) = _
    rw [List.foldlM_cons, hget]
    show some (leVal ((bytes.drop start).take n) + bytes[start + n] * 256 ^ n,
      256 ^ n * 256) = _
    have htake : (bytes.drop start).take (n + 1)
        = (bytes.drop start).take n ++ [bytes[start + n]] := by
      rw [List.take_succ, List.getElem?_drop, hget]
      rfl
    have hlen : ((bytes.drop start).take n).length = n := by
      rw [List.length_take, List.length_drop]
      omega
    rw [htake, leVal_append, hlen, pow_succ]

theorem bytes16_foldl_none (bytes : List Nat) (start : Nat) :
    ∀ n, bytes.length < start + n → 1 ≤ n →
      ((List.range n).foldlM
        (fun (s : Nat × Nat) i =>
          match bytes[start + i]? with
          | some b => some (s.1 + b * s.2, s.2 * 256)
          | none => none)
        ((0, 1) : Nat × Nat) : Option (Nat × Nat))
      = none
  | 0, _, h1 => by omega
  | n + 1, h, _ => by
    rw [List.range_succ, List.foldlM_append]
    by_cases hn : bytes.length < start + n
    · by_cases hn1 : 1 ≤ n
      · rw [bytes16_foldl_none bytes start n hn hn1]
        rfl
      · have hn0 : n = 0 := by omega
        subst hn0
        have hget : bytes[start + 0]? = none :=
          List.getElem?_eq_none (by omega)
        show (List.foldlM
            (fun (s : Nat × Nat) i =>
              match bytes[start + i]? with
              | some b => some (s.1 + b * s.2, s.2 * 256)
              | none => none)
            ((0, 1) : Nat × Nat) [0]
          : Option (Nat × Nat)) = none
        rw [List.foldlM_cons, hget]
        rfl
    · rw [bytes16_foldl_spec bytes start n (by omega)]
      have hget : bytes[start + n]? = none :=
        List.getElem?_eq_none (by omega)
      show (List.foldlM
          (fun (s : Nat × Nat) i =>
            match bytes[start + i]? with
            | some b => some (s.1 + b * s.2, s.2 * 256)
            | none => none)
          ((leVal ((bytes.drop start).take n), 256 ^ n) : Nat × Nat) [n]
        : Option (Nat × Nat)) = none
      rw [List.foldlM_cons, hget]
      rfl

theorem bytes16ToField_spec (bytes : List Nat) (start : Nat)
    (h : start + 16 ≤ bytes.length) :
    bytes16ToField bytes start = some (leVal ((bytes.drop start).take 16)) := by
  unfold bytes16ToField
  rw [bytes16_foldl_spec bytes start 16 h, Option.map_some']

theorem bytes16ToField_none (bytes : List Nat) (start : Nat)
    (h : bytes.length < start + 16) :
    bytes16ToField bytes start = none := by
  unfold bytes16ToField
  rw [bytes16_foldl_none bytes start 16 h (by omega)]
  rfl

/-- **C3 (amended)**: the index derivation performs no length validation and
raises no `InvalidIdentityLength` error.  For inputs shorter than 32 bytes
it fails because a 16-byte read runs out of bounds (`BigInt(undefined)`
throws); for inputs of 32 or more bytes it succeeds, returning
`hash2(low, high)` of the first 32 bytes read as two little-endian 16-byte
limbs — longer inputs are silently truncated rather than rejected. -/
theorem pubkeyToIndex_no_length_check (h2 : Nat → Nat → Nat) (pk : List Nat) :
    (pk.length < 32 → pubkeyToIndex h2 pk = none) ∧
    (32 ≤ pk.length →
      pubkeyToIndex h2 pk
        = some (h2 (leVal (pk.take 16)) (leVal ((pk.drop 16).take 16)))) := by
  constructor
  · intro hlen
    unfold pubkeyToIndex
    by_cases h0 : pk.length < 16
    · rw [bytes16ToField_none pk 0 (by omega)]
      rfl
    · rw [bytes16ToField_spec pk 0 (by omega),
        bytes16ToField_none pk 16 (by omega)]
      rfl
  · intro hlen
    unfold pubkeyToIndex
    rw [bytes16ToField_spec pk 0 (by omega),
      bytes16ToField_spec pk 16 (by omega), List.drop_zero]
    rfl

/-- **C3 (counterexample)**: a 33-byte identity is not rejected — the claim
that the index derivation fails for every input whose length is not exactly
32 is false: the derivation succeeds on 33 bytes, silently using the first
32. -/
theorem pubkeyToIndex_length_counterexample :
    (List.replicate 33 0 : List Nat).length ≠ 32 ∧
    pubkeyToIndex testHash (List.replicate 33 0) ≠ none := by
  constructor
  · decide
  · decide

/-! ## Hex encoding -/

theorem hexDigitChar_facts (d : Nat) (hd : d < 16) :
    isHexLowerChar (hexDigitChar d) = true ∧
    hexCharVal (hexDigitChar d) = d := by
  interval_cases d <;> exact ⟨by decide, by decide⟩

theorem hexValBE_append_single (xs : List Char) (c : Char) :
    hexValBE (xs ++ [c]) = 16 * hexValBE xs + hexCharVal c := by
  unfold hexValBE
  rw [List.foldl_append, List.foldl_cons, List.foldl_nil]

theorem natToHexList_facts (n : Nat) :
    (∀ c ∈ natToHexList n, isHexLowerChar c = true) ∧
    hexValBE (natToHexList n) = n := by
  induction n using Nat.strong_induction_on with
  | _ n ih =>
    by_cases h : n < 16
    · rw [natToHexList, dif_pos h]
      constructor
      · intro c hc
        rw [List.mem_singleton.mp hc]
        exact (hexDigitChar_facts n h).1
      · show 16 * 0 + hexCharVal (hexDigitChar n) = n
        rw [(hexDigitChar_facts n h).2]
        omega
    · rw [natToHexList, dif_neg h]
      have ihd := ih (n / 16) (Nat.div_lt_self (by omega) (by omega))
      have hmod : n % 16 < 16 := Nat.mod_lt _ (by omega)
      constructor
      · intro c hc
        rcases List.mem_append.mp hc with h' | h'
        · exact ihd.1 c h'
        · rw [List.mem_singleton.mp h']
          exact (hexDigitChar_facts (n % 16) hmod).1
      · rw [hexValBE_append_single, ihd.2, (hexDigitChar_facts (n % 16) hmod).2]
        omega

theorem natToHexList_length_le :
    ∀ (k n : Nat), n < 16 ^ (k + 1) → (natToHexList n).length ≤ k + 1
  | k, n, hn => by
    by_cases h : n < 16
    · rw [natToHexList, dif_pos h]
      simp
    · rw [natToHexList, dif_neg h]
      rw [List.length_append]
      cases k with
      | zero =>
        exfalso
        omega
      | succ k' =>
        have ihd := natToHexList_length_le k' (n / 16)
          (by
            rw [Nat.div_lt_iff_lt_mul (by omega : (0 : Nat) < 16)]
            calc n < 16 ^ (k' + 1 + 1) := hn
              _ = 16 ^ (k' + 1) * 16 := by rw [pow_succ])
        simp only [List.length_singleton]
        omega

theorem hexValBE_replicate_zero_append (m : Nat) (s : List Char) :
    hexValBE (List.replicate m '0' ++ s) = hexValBE s := by
  unfold hexValBE
  rw [List.foldl_append]
  have : List.foldl (fun a c => 16 * a + hexCharVal c) 0
      (List.replicate m '0') = 0 := by
    induction m with
    | zero => rfl
    | succ m ihm =>
      rw [List.replicate_succ, List.foldl_cons]
      have h0 : 16 * 0 + hexCharVal '0' = 0 := by decide
      rw [h0, ihm]
  rw [this]

/-- **C10**: for every field element `f < 2^254`, `fieldToHex f` is the
string `0x` followed by exactly 64 lowercase hexadecimal characters whose
big-endian value is `f` (the zero-padded canonical hex encoding). -/
theorem fieldToHex_spec (f : Nat) (hf : f < 2 ^ 254) :
    ∃ digits : List Char,
      fieldToHex f = String.mk ('0' :: 'x' :: digits) ∧
      digits.length = 64 ∧
      (∀ c ∈ digits, isHexLowerChar c = true) ∧
      hexValBE digits = f := by
  refine ⟨padStartZeros (natToHexList f) 64, rfl, ?_, ?_, ?_⟩
  · unfold padStartZeros
    rw [List.length_append, List.length_replicate]
    have hlen : (natToHexList f).length ≤ 64 := by
      apply natToHexList_length_le 63 f
      calc f < 2 ^ 254 := hf
        _ ≤ 16 ^ 64 := by norm_num
    omega
  · intro c hc
    unfold padStartZeros at hc
    rcases List.mem_append.mp hc with h | h
    · rw [List.eq_of_mem_replicate h]
      decide
    · exact (natToHexList_facts f).1 c h
  · unfold padStartZeros
    rw [hexValBE_replicate_zero_append, (natToHexList_facts f).2]

theorem pubkeyToIndexM_none (pk : List Nat) : pubkeyToIndexM none pk = none := by
  unfold pubkeyToIndexM
  cases h1 : bytes16ToField pk 0 <;> cases h2 : bytes16ToField pk 16 <;>
    simp [h1, h2, poseidonHash2M]

theorem foldStepM_none (defaults : List Nat) (level : Nat) (cur : Leaves)
    (hne : cur ≠ []) : foldStepM none defaults level cur = none := by
  obtain ⟨e, es, rfl⟩ := List.exists_cons_of_ne_nil hne
  rfl

theorem rootLevelsM_none (defaults : List Nat) (leaves : Leaves)
    (hne : leaves ≠ []) :
    ∀ l, 1 ≤ l → rootLevelsM none defaults leaves l = none
  | l + 1, _ => by
    unfold rootLevelsM
    cases l with
    | zero =>
      show foldStepM none defaults 0 leaves = none
      exact foldStepM_none defaults 0 leaves hne
    | succ l' =>
      rw [rootLevelsM_none defaults leaves hne (l' + 1) (by omega)]
      rfl

/-- **C9**: every listed tree operation that consumes the hash oracle fails
fast when invoked before the hasher is initialized: construction (which must
precede any other call — no engine can exist uninitialized), `insert`,
`get`, `isBlacklisted` and `getMerkleProof` fail on any state, and `getRoot`
fails whenever it hashes (its empty-tree branch performs no hashing at all —
it only reads the precomputed ladder, so it never touches an uninitialized
hasher either). -/
theorem uninitialized_hasher_fails (t : SparseMerkleTree) (pk : List Nat)
    (v : Nat) :
    newM none = none ∧
    insertM none t pk v = none ∧
    getM none t pk = none ∧
    isBlacklistedM none t pk = none ∧
    (t.leaves ≠ [] → getRootM none t = none) ∧
    getMerkleProofM none t pk = none := by
  have hget : getM none t pk = none := by
    unfold getM
    rw [pubkeyToIndexM_none]
    rfl
  refine ⟨?_, ?_, hget, ?_, ?_, ?_⟩
  · decide
  · unfold insertM
    rw [pubkeyToIndexM_none]
    rfl
  · unfold isBlacklistedM
    rw [hget]
    rfl
  · intro hne
    unfold getRootM
    rw [if_neg (fun h => hne (List.length_eq_zero.mp h)),
      rootLevelsM_none t.defaultHashes t.leaves hne TREE_DEPTH (by
        rw [show TREE_DEPTH = 254 from rfl]
        omega)]
    rfl
  · unfold getMerkleProofM
    rw [pubkeyToIndexM_none]
    rfl

/-! ## Witnesses -/

theorem smt_exclusion_roundtrip_witness :
    ∃ siblings : List Nat,
      treeA.getMerkleProof testHash pkC = some (siblings, 0) ∧
      siblings.length = TREE_DEPTH ∧
      verifyFoldAux testHash (getPathBits idxC) siblings 0
        = treeA.getRoot testHash :=
  smt_exclusion_roundtrip testHash [(pkA, 1)] treeA rfl pkC idxC rfl
    (by decide) (by decide)

theorem smt_inclusion_roundtrip_witness :
    ∃ siblings : List Nat,
      treeA5.getMerkleProof testHash pkA = some (siblings, 5) ∧
      siblings.length = TREE_DEPTH ∧
      verifyFoldAux testHash (getPathBits idxA) siblings 5
        = treeA5.getRoot testHash :=
  smt_inclusion_roundtrip testHash (SparseMerkleTree.new testHash) treeA5
    ⟨rfl, List.nodup_nil⟩ pkA 5 idxA rfl (by decide) rfl

theorem pubkeyToIndex_no_length_check_witness :
    pubkeyToIndex testHash ([] : List Nat) = none ∧
    pubkeyToIndex testHash pkC
      = some (testHash (leVal (pkC.take 16)) (leVal ((pkC.drop 16).take 16))) :=
  ⟨(pubkeyToIndex_no_length_check testHash []).1 (by decide),
   (pubkeyToIndex_no_length_check testHash pkC).2 (by decide)⟩

theorem default_hash_ladder_spec_witness :
    (SparseMerkleTree.new testHash).defaultHashes.getD 5 0
      = testHash ((SparseMerkleTree.new testHash).defaultHashes.getD (5 - 1) 0)
          ((SparseMerkleTree.new testHash).defaultHashes.getD (5 - 1) 0) ∧
    treeA5.defaultHashes = (SparseMerkleTree.new testHash).defaultHashes :=
  ⟨(default_hash_ladder_spec testHash).2.2.1 5 (by decide) (by decide),
   (default_hash_ladder_spec testHash).2.2.2 (SparseMerkleTree.new testHash)
     treeA5 pkA 5 rfl⟩

theorem empty_root_spec_witness :
    (SparseMerkleTree.new testHash).getRoot testHash
      = defaultHash testHash TREE_DEPTH ∧
    (SparseMerkleTree.new testHash).getEmptyRoot
      = defaultHash testHash TREE_DEPTH :=
  ⟨(empty_root_spec testHash).1,
   (empty_root_spec testHash).2.1 (SparseMerkleTree.new testHash)
     ⟨rfl, List.nodup_nil⟩⟩

theorem insert_overwrite_spec_witness :
    treeA7.leaves.countP (fun e => e.1 == idxA) = 1 ∧
    treeA7.get testHash pkA = some 7 ∧
    (5 = 7 → treeA7 = treeA5 ∧
      treeA7.getRoot testHash = treeA5.getRoot testHash) :=
  insert_overwrite_spec testHash (SparseMerkleTree.new testHash) treeA5 treeA7
    pkA 5 7 idxA ⟨rfl, List.nodup_nil⟩ rfl rfl rfl

theorem getRoot_pure_of_leafmap_witness :
    treeP1.getRoot testHash = treeP2.getRoot testHash :=
  getRoot_pure_of_leafmap testHash treeP1 treeP2
    ⟨rfl, by show (treeP1.leaves.map Prod.fst).Nodup; decide⟩
    ⟨rfl, by show (treeP2.leaves.map Prod.fst).Nodup; decide⟩ (by decide)

theorem root_fold_no_fallback_witness :
    ∃ r, mapGet (rootLevels testHash treeB.defaultHashes treeB.leaves
        TREE_DEPTH) 0 = some r ∧ treeB.getRoot testHash = r :=
  root_fold_no_fallback testHash treeB
    ⟨rfl, by show (treeB.leaves.map Prod.fst).Nodup; decide⟩ (by decide)
    (by decide)

theorem uninitialized_hasher_fails_witness :
    newM none = none ∧
    getRootM none ⟨[(0, 1)], []⟩ = none ∧
    getMerkleProofM none ⟨[(0, 1)], []⟩ [] = none :=
  ⟨(uninitialized_hasher_fails ⟨[(0, 1)], []⟩ [] 0).1,
   (uninitialized_hasher_fails ⟨[(0, 1)], []⟩ [] 0).2.2.2.2.1 (by decide),
   (uninitialized_hasher_fails ⟨[(0, 1)], []⟩ [] 0).2.2.2.2.2⟩

theorem fieldToHex_spec_witness :
    (5 : Nat) < 2 ^ 254 ∧
    ∃ digits : List Char,
      fieldToHex 5 = String.mk ('0' :: 'x' :: digits) ∧
      digits.length = 64 ∧
      (∀ c ∈ digits, isHexLowerChar c = true) ∧
      hexValBE digits = 5 :=
  ⟨by norm_num, fieldToHex_spec 5 (by norm_num)⟩
